import Mathlib

/-!
# Verification of the implicit treap (`treap.cpp`)

A shallow embedding of the implicit-treap implementation: a randomized
balanced binary tree indexed by position, supporting `merge`, `split`,
lazy range reversal, removal of the first element, and a
minimum-value-index query.  C++ `Node*` pointers become an inductive
type with a `nil` constructor; the destructive pointer updates become
functional tree rebuilding (the source never shares a subtree between
two live parents, so this is faithful).  C++ `int` fields become `Int`
(no arithmetic in the program approaches the 2^31 overflow boundary on
the inputs the claims quantify over).
-/

namespace Treap

/-- A treap node (`class Node` in the source); `nil` models the C++
null pointer.  Fields in source order: `value`, `priority`,
`min_value`, `reverse`, `size`, `height`, `left_child`, `right_child`. -/
inductive Node where
  | nil : Node
  | mk (value priority min_value : Int) (rev : Bool) (size height : Int)
       (left right : Node) : Node
deriving DecidableEq, Repr

/-- Getter `get_value`: `-1` for null, otherwise the `value` field. -/
def get_value : Node → Int
  | .nil => -1
  | .mk v _ _ _ _ _ _ _ => v

/-- Getter `get_min_value`: the `1 << 30` sentinel for null, otherwise the
cached `min_value` field. -/
def get_min_value : Node → Int
  | .nil => 2 ^ 30
  | .mk _ _ m _ _ _ _ _ => m

/-- Getter `get_priority`: `-1` for null, otherwise the `priority` field. -/
def get_priority : Node → Int
  | .nil => -1
  | .mk _ p _ _ _ _ _ _ => p

/-- Getter `get_size`: `0` for null, otherwise the cached `size` field. -/
def get_size : Node → Int
  | .nil => 0
  | .mk _ _ _ _ s _ _ _ => s

/-- Getter `get_height`: `0` for null, otherwise the cached `height` field. -/
def get_height : Node → Int
  | .nil => 0
  | .mk _ _ _ _ _ h _ _ => h

/-- The source's `Node::min` utility (`a < b ? a : b`). -/
def imin (a b : Int) : Int := if a < b then a else b

/-- The source's `Node::max` utility (`a > b ? a : b`). -/
def imax (a b : Int) : Int := if a > b then a else b

/-- The left child of a node (null for null). -/
def left_of : Node → Node
  | .nil => .nil
  | .mk _ _ _ _ _ _ l _ => l

/-- The right child of a node (null for null). -/
def right_of : Node → Node
  | .nil => .nil
  | .mk _ _ _ _ _ _ _ r => r

/-- Replace the left child (`current->left_child = ...`); no-op on null. -/
def set_left : Node → Node → Node
  | .nil, _ => .nil
  | .mk v p m rv s h _ r, x => .mk v p m rv s h x r

/-- Replace the right child (`current->right_child = ...`); no-op on null. -/
def set_right : Node → Node → Node
  | .nil, _ => .nil
  | .mk v p m rv s h l _, x => .mk v p m rv s h l x

/-- Source `reset_min(x)`: sets `min_value` back to `value`; no-op on null. -/
def reset_min : Node → Node
  | .nil => .nil
  | .mk v p _ rv s h l r => .mk v p v rv s h l r

/-- Source `swap_children(x)`: exchanges the two child pointers; no-op on null. -/
def swap_children : Node → Node
  | .nil => .nil
  | .mk v p m rv s h l r => .mk v p m rv s h r l

/-- The toggle `x->reverse ^= true` applied to a (possibly null) node: toggles the
lazy-reversal flag; no-op on null (the source only performs the toggle
after a null check). -/
def flip_rev : Node → Node
  | .nil => .nil
  | .mk v p m rv s h l r => .mk v p m (!rv) s h l r

/-- Source `recalc(x)`: recomputes `size` from the children's cached sizes;
for a leaf sets `height = 0` and `min_value = value`; for an internal
node sets `height` from the children's cached heights and `min_value`
to the minimum of the *current cached* `min_value` and the children's
cached minima (`min(get_min_value(x), min(get_min_value(l), get_min_value(r)))`).
No-op on null. -/
def recalc : Node → Node
  | .nil => .nil
  | .mk v p m rv _ _ l r =>
    let s := 1 + get_size l + get_size r
    if l = Node.nil ∧ r = Node.nil then
      .mk v p v rv s 0 l r
    else
      .mk v p (imin m (imin (get_min_value l) (get_min_value r))) rv s
        (1 + imax (get_height l) (get_height r)) l r

/-- Source `propagate(x)`: if the `reverse` flag is set, toggle the flag on
both (non-null) children, swap the children, clear the flag, and
`recalc`; otherwise no-op. -/
def propagate : Node → Node
  | .nil => .nil
  | .mk v p m rv s h l r =>
    if rv then recalc (.mk v p m false s h (flip_rev r) (flip_rev l))
    else .mk v p m rv s h l r

/-- Number of nodes actually present in the tree (the semantic size,
as opposed to the cached `size` field). -/
def count : Node → Nat
  | .nil => 0
  | .mk _ _ _ _ _ _ l r => 1 + count l + count r

theorem count_flip_rev (x : Node) : count (flip_rev x) = count x := by
  cases x <;> rfl

theorem count_reset_min (x : Node) : count (reset_min x) = count x := by
  cases x <;> rfl

theorem count_recalc (x : Node) : count (recalc x) = count x := by
  cases x with
  | nil => rfl
  | mk v p m rv s h l r =>
    simp only [recalc]
    split
    · rename_i hc
      simp [count, hc.1, hc.2]
    · simp [count]

theorem count_propagate (x : Node) : count (propagate x) = count x := by
  cases x with
  | nil => rfl
  | mk v p m rv s h l r =>
    simp only [propagate]
    split
    · rw [count_recalc]
      simp [count, count_flip_rev]
      omega
    · rfl

theorem recalc_ne_nil (v p m : Int) (rv : Bool) (s h : Int) (l r : Node) :
    recalc (.mk v p m rv s h l r) ≠ Node.nil := by
  simp only [recalc]
  split <;> simp

theorem propagate_ne_nil (v p m : Int) (rv : Bool) (s h : Int) (l r : Node) :
    propagate (.mk v p m rv s h l r) ≠ Node.nil := by
  simp only [propagate]
  split
  · exact recalc_ne_nil _ _ _ _ _ _ _ _
  · simp

theorem count_left_of_le (x : Node) : count (left_of x) ≤ count x := by
  cases x <;> (simp only [left_of, count]; omega)

theorem count_right_of_le (x : Node) : count (right_of x) ≤ count x := by
  cases x <;> (simp only [right_of, count]; omega)

theorem count_left_of_lt (x : Node) (hx : x ≠ Node.nil) :
    count (left_of x) < count x := by
  cases x with
  | nil => exact absurd rfl hx
  | mk v p m rv s h l r => simp only [left_of, count]; omega

theorem count_right_of_lt (x : Node) (hx : x ≠ Node.nil) :
    count (right_of x) < count x := by
  cases x with
  | nil => exact absurd rfl hx
  | mk v p m rv s h l r => simp only [right_of, count]; omega

theorem count_left_of_propagate_lt (x : Node) (hx : x ≠ Node.nil) :
    count (left_of (propagate x)) < count x := by
  have ha : propagate x ≠ Node.nil := by
    cases x with
    | nil => exact absurd rfl hx
    | mk v p m rv s h l r => exact propagate_ne_nil _ _ _ _ _ _ _ _
  have hb := count_left_of_lt (propagate x) ha
  have hc := count_propagate x
  omega

theorem count_right_of_propagate_lt (x : Node) (hx : x ≠ Node.nil) :
    count (right_of (propagate x)) < count x := by
  have ha : propagate x ≠ Node.nil := by
    cases x with
    | nil => exact absurd rfl hx
    | mk v p m rv s h l r => exact propagate_ne_nil _ _ _ _ _ _ _ _
  have hb := count_right_of_lt (propagate x) ha
  have hc := count_propagate x
  omega

theorem merge_dec_right (x y : Node) (hx : x ≠ Node.nil) :
    count (right_of (propagate x)) + count (propagate y) < count x + count y := by
  have ha := count_right_of_propagate_lt x hx
  have hb := count_propagate y
  omega

theorem merge_dec_left (x y : Node) (hy : y ≠ Node.nil) :
    count (propagate x) + count (left_of (propagate y)) < count x + count y := by
  have ha := count_left_of_propagate_lt y hy
  have hb := count_propagate x
  omega

/-- Source `merge(left, right)`: concatenates two treaps.  Null bases return
the other argument; otherwise both roots are propagated and the root
with the strictly larger priority wins: its inner child is recursively
merged with the other treap, the child link is replaced, and the node
is `reset_min`-ed and `recalc`-ed. -/
def merge : Node → Node → Node
  | .nil, b => b
  | .mk v p m rv s h l r, .nil => .mk v p m rv s h l r
  | .mk v1 p1 m1 rv1 s1 h1 l1 r1, .mk v2 p2 m2 rv2 s2 h2 l2 r2 =>
    let L := propagate (.mk v1 p1 m1 rv1 s1 h1 l1 r1)
    let R := propagate (.mk v2 p2 m2 rv2 s2 h2 l2 r2)
    if get_priority L > get_priority R then
      recalc (reset_min (set_right L (merge (right_of L) R)))
    else
      recalc (reset_min (set_left R (merge L (left_of R))))
termination_by a b => count a + count b
decreasing_by
  · exact merge_dec_right _ _ (by simp)
  · exact merge_dec_left _ _ (by simp)

/-- Source `split(current, index)`: splits a treap into the first `index`
elements and the rest, navigating by the cached sizes.  The current
node is propagated; if the left subtree's cached size is `≥ index` the
cut is in the left subtree, else in the right subtree with the index
shifted by `size(left) + 1`.  The node on the kept side is
`reset_min`-ed and `recalc`-ed after its child link is replaced. -/
def split : Node → Int → Node × Node
  | .nil, _ => (.nil, .nil)
  | .mk v p m rv s h l r, index =>
    let C := propagate (.mk v p m rv s h l r)
    if get_size (left_of C) ≥ index then
      let res := split (left_of C) index
      (res.1, recalc (reset_min (set_left C res.2)))
    else
      let res := split (right_of C) (index - get_size (left_of C) - 1)
      (recalc (reset_min (set_right C res.1)), res.2)
termination_by t _ => count t
decreasing_by
  · exact count_left_of_propagate_lt _ (by simp)
  · exact count_right_of_propagate_lt _ (by simp)

/-- Source `find_min(current, indices_passed)`: returns `-1` on the empty
treap; otherwise propagates the current node, computes the node's
in-order index, and recurses into the left (then right) child whenever
that child's cached minimum equals the current node's cached minimum,
returning the current index when neither matches. -/
def find_min : Node → Int → Int
  | .nil, _ => -1
  | .mk v p m rv s h l r, ip =>
    let C := propagate (.mk v p m rv s h l r)
    let index := get_size (left_of C) + ip
    if get_min_value C = get_min_value (left_of C) then
      find_min (left_of C) ip
    else if get_min_value C = get_min_value (right_of C) then
      find_min (right_of C) (index + 1)
    else index
termination_by t _ => count t
decreasing_by
  · exact count_left_of_propagate_lt _ (by simp)
  · exact count_right_of_propagate_lt _ (by simp)

/-- Source `remove_first(root)`: if the cached size is at least 1, split at
index 1 and return the right part (discarding the single-element left
part); otherwise return the treap unchanged. -/
def remove_first (root : Node) : Node :=
  if get_size root ≥ 1 then (split root 1).2 else root

/-- Source `reverse_subarray(root, from, to)`: split at `from` into
(`before`, `rest`), split `rest` at `to - from + 1` into (`subarray`,
`after`), toggle `subarray`'s reverse flag, and merge back in order. -/
def reverse_subarray (root : Node) (lo hi : Int) : Node :=
  let res_left := split root lo
  let before_subarray := res_left.1
  let rest := res_left.2
  let res_right := split rest (hi - lo + 1)
  let subarray := res_right.1
  let after_subarray := res_right.2
  merge (merge before_subarray (flip_rev subarray)) after_subarray

/-- The `Node(value)` constructor with an explicit priority in place of
the random draw: fields set to `value`, `priority`, `min_value = value`,
`reverse = false`, null children, then `recalc`. -/
def newNode (v p : Int) : Node :=
  recalc (.mk v p v false 0 0 .nil .nil)

/-- The build phase of `main`: start from a single-node treap for the
first element and fold `merge` with a fresh single-node treap for each
later element (paired with its priority). -/
def buildTreap (first : Int × Int) (rest : List (Int × Int)) : Node :=
  rest.foldl (fun acc vp => merge acc (newNode vp.1 vp.2)) (newNode first.1 first.2)

/-- The query loop of `main`: for each of `n` steps (step counter `i`),
emit `find_min + i + 1`, and if the found index is nonzero reverse the
prefix up to it before removing the first element, else just remove the
first element.  Returns the emitted outputs and the final treap. -/
def run_queries : Node → Int → Nat → List Int × Node
  | root, _, 0 => ([], root)
  | root, i, n + 1 =>
    let idx := find_min root 0
    let out := idx + i + 1
    let root2 := if idx ≠ 0 then remove_first (reverse_subarray root 0 idx)
                 else remove_first root
    let rest := run_queries root2 (i + 1) n
    (out :: rest.1, rest.2)

/-- The in-order sequence represented by a (possibly lazily-reversed)
treap. -/
def seq : Node → List Int
  | .nil => []
  | .mk v _ _ rv _ _ l r =>
    if rv then (seq r).reverse ++ v :: (seq l).reverse
    else seq l ++ v :: seq r

/-- Instrumented companion of `run_queries`: records, for each step,
the element that `remove_first` discards (the head of the sequence
after the step's conditional reversal).  Used to state what the
"conceptual array" looks like after all removals: the removed elements
listed in removal order. -/
def run_queries_removed : Node → Int → Nat → List Int
  | _, _, 0 => []
  | root, i, n + 1 =>
    let idx := find_min root 0
    let root1 := if idx ≠ 0 then reverse_subarray root 0 idx else root
    (seq root1).take 1 ++ run_queries_removed (remove_first root1) (i + 1) n

/-- Mirrors the recursion of `find_min` and checks that whenever the
guard `get_min_value(current) == get_min_value(child)` sends the
traversal into a child, that child is non-null (in the C++ source the
recursive call `current->child->find_min(...)` dereferences the child
pointer, so a null child there is undefined behavior). -/
def find_min_safe : Node → Bool
  | .nil => true
  | .mk v p m rv s h l r =>
    let C := propagate (.mk v p m rv s h l r)
    if get_min_value C = get_min_value (left_of C) then
      decide (left_of C ≠ Node.nil) && find_min_safe (left_of C)
    else if get_min_value C = get_min_value (right_of C) then
      decide (right_of C ≠ Node.nil) && find_min_safe (right_of C)
    else true
termination_by t => count t
decreasing_by
  · exact count_left_of_propagate_lt _ (by simp)
  · exact count_right_of_propagate_lt _ (by simp)

/-!
## Semantic layer

`seq` is the logical in-order sequence represented by a treap, with
outstanding `reverse` flags interpreted (a set flag swaps and reverses
both child sequences).  `tmin` is the subtree minimum computed the way
the cached `min_value` field is meant to summarize it: taking the
`1 << 30` sentinel for empty subtrees, exactly as `get_min_value`
does.  The `*OK` predicates are the data-structure invariants.
-/

/-- The subtree minimum with the `1 << 30` sentinel for empty
subtrees, mirroring how the cached `min_value` fields are combined. -/
def tmin : Node → Int
  | .nil => 2 ^ 30
  | .mk v _ _ _ _ _ l r => min v (min (tmin l) (tmin r))

/-- Minimum of a list of values, clamped with the `1 << 30` sentinel
(the value an empty treap reports). -/
def listMin (l : List Int) : Int := l.foldr min (2 ^ 30)

/-- Size invariant: every cached `size` field equals the number of
nodes in its subtree. -/
def sizeOK : Node → Bool
  | .nil => true
  | .mk _ _ _ _ s _ l r =>
    (s == 1 + (count l : Int) + (count r : Int)) && sizeOK l && sizeOK r

/-- Cache-consistency invariant for `min_value`: every cached
`min_value` equals what `reset_min` followed by `recalc` computes from
the node's value and its children's caches (the value itself for a
leaf, `min(value, get_min_value(left), get_min_value(right))` for an
internal node).  This is the invariant the operations re-establish
bottom-up; it holds for arbitrary stored values. -/
def minCacheOK : Node → Bool
  | .nil => true
  | .mk v _ m _ _ _ l r =>
    (m == (if l = Node.nil ∧ r = Node.nil then v
           else min v (min (get_min_value l) (get_min_value r)))) &&
      minCacheOK l && minCacheOK r

/-- All stored values are `≤ bound`. -/
def vals_le (bound : Int) : Node → Bool
  | .nil => true
  | .mk v _ _ _ _ _ l r => decide (v ≤ bound) && vals_le bound l && vals_le bound r

/-- The spec's local min equation at every node:
`subtreeMin(x) = min(value(x), subtreeMin(x.left), subtreeMin(x.right))`,
reading a child's `subtreeMin` through `get_min_value` (so the
`1 << 30` sentinel for a missing child). -/
def localMinEq : Node → Bool
  | .nil => true
  | .mk v _ m _ _ _ l r =>
    (m == min v (min (get_min_value l) (get_min_value r))) &&
      localMinEq l && localMinEq r

/-! ### Basic lemmas about the primitive operations -/

theorem imin_eq (a b : Int) : imin a b = min a b := by
  simp only [imin]; split <;> omega

theorem imax_eq (a b : Int) : imax a b = max a b := by
  simp only [imax]; split <;> omega

theorem seq_flip_rev (x : Node) : seq (flip_rev x) = (seq x).reverse := by
  cases x with
  | nil => rfl
  | mk v p m rv s h l r => cases rv <;> simp [flip_rev, seq]

theorem seq_reset_min (x : Node) : seq (reset_min x) = seq x := by
  cases x <;> rfl

theorem seq_recalc (x : Node) : seq (recalc x) = seq x := by
  cases x with
  | nil => rfl
  | mk v p m rv s h l r =>
    simp only [recalc]
    split <;> rfl

theorem seq_propagate (x : Node) : seq (propagate x) = seq x := by
  cases x with
  | nil => rfl
  | mk v p m rv s h l r =>
    simp only [propagate]
    split
    · rename_i hrv
      rw [seq_recalc]
      simp [seq, seq_flip_rev, hrv]
    · rfl

theorem length_seq (x : Node) : (seq x).length = count x := by
  induction x with
  | nil => rfl
  | mk v p m rv s h l r ihl ihr =>
    cases rv <;> (simp [seq, count, ihl, ihr]; omega)

theorem seq_eq_nil_iff (x : Node) : seq x = [] ↔ x = Node.nil := by
  cases x with
  | nil => simp [seq]
  | mk v p m rv s h l r => cases rv <;> simp [seq]

theorem tmin_flip_rev (x : Node) : tmin (flip_rev x) = tmin x := by
  cases x <;> rfl

theorem tmin_reset_min (x : Node) : tmin (reset_min x) = tmin x := by
  cases x <;> rfl

theorem tmin_recalc (x : Node) : tmin (recalc x) = tmin x := by
  cases x with
  | nil => rfl
  | mk v p m rv s h l r =>
    simp only [recalc]
    split <;> rfl

theorem tmin_propagate (x : Node) : tmin (propagate x) = tmin x := by
  cases x with
  | nil => rfl
  | mk v p m rv s h l r =>
    simp only [propagate]
    split
    · rw [tmin_recalc]
      simp only [tmin, tmin_flip_rev]
      omega
    · rfl

theorem get_min_value_flip_rev (x : Node) :
    get_min_value (flip_rev x) = get_min_value x := by
  cases x <;> rfl

theorem flip_rev_eq_nil_iff (x : Node) : flip_rev x = Node.nil ↔ x = Node.nil := by
  cases x <;> simp [flip_rev]

/-! ### Lemmas about `listMin` -/

theorem listMin_cons (a : Int) (l : List Int) :
    listMin (a :: l) = min a (listMin l) := rfl

theorem listMin_le_top (l : List Int) : listMin l ≤ 2 ^ 30 := by
  induction l with
  | nil => simp [listMin]
  | cons a t ih => rw [listMin_cons]; omega

theorem listMin_nil : listMin ([] : List Int) = 2 ^ 30 := rfl

theorem listMin_append (l1 l2 : List Int) :
    listMin (l1 ++ l2) = min (listMin l1) (listMin l2) := by
  induction l1 with
  | nil =>
    have := listMin_le_top l2
    rw [List.nil_append, listMin_nil]
    omega
  | cons a t ih =>
    simp only [List.cons_append, listMin_cons, ih]
    omega

theorem listMin_reverse (l : List Int) : listMin l.reverse = listMin l := by
  induction l with
  | nil => rfl
  | cons a t ih =>
    have ht := listMin_le_top t
    rw [List.reverse_cons, listMin_append, ih]
    simp only [listMin_cons, listMin_nil]
    omega

theorem tmin_eq_listMin (x : Node) : tmin x = listMin (seq x) := by
  induction x with
  | nil => rfl
  | mk v p m rv s h l r ihl ihr =>
    cases rv <;>
      simp only [tmin, seq, if_true, if_false, listMin_append, listMin_cons,
        listMin_reverse, ihl, ihr, Bool.false_eq_true] <;>
      omega

theorem listMin_le_mem (l : List Int) (x : Int) (hx : x ∈ l) : listMin l ≤ x := by
  induction l with
  | nil => cases hx
  | cons a t ih =>
    rw [listMin_cons]
    rcases List.mem_cons.mp hx with h | h
    · omega
    · have := ih h
      omega

theorem listMin_mem (l : List Int) (hne : l ≠ [])
    (hb : ∀ x ∈ l, x ≤ 2 ^ 30) : listMin l ∈ l := by
  induction l with
  | nil => exact absurd rfl hne
  | cons a t ih =>
    rw [listMin_cons]
    cases t with
    | nil =>
      have ha := hb a (by simp)
      simp [listMin]
      omega
    | cons b t2 =>
      rcases le_or_lt a (listMin (b :: t2)) with h | h
      · simp [min_eq_left h]
      · have hm := ih (by simp) (fun x hx => hb x (List.mem_cons_of_mem _ hx))
        rw [min_eq_right (le_of_lt h)]
        exact List.mem_cons_of_mem _ hm

/-! ### Invariant preservation for the primitive operations -/

theorem get_size_eq_count (x : Node) (hx : sizeOK x) : get_size x = count x := by
  cases x with
  | nil => rfl
  | mk v p m rv s h l r =>
    simp only [sizeOK, Bool.and_eq_true, beq_iff_eq] at hx
    simp only [get_size, count]
    omega

theorem sizeOK_mk_iff (v p m : Int) (rv : Bool) (s h : Int) (l r : Node) :
    sizeOK (.mk v p m rv s h l r) ↔
      s = 1 + (count l : Int) + count r ∧ sizeOK l ∧ sizeOK r := by
  simp [sizeOK, Bool.and_eq_true, beq_iff_eq, and_assoc]

theorem sizeOK_flip_rev (x : Node) (hx : sizeOK x) : sizeOK (flip_rev x) := by
  cases x with
  | nil => exact hx
  | mk v p m rv s h l r => simpa [flip_rev, sizeOK] using hx

theorem sizeOK_reset_min (x : Node) (hx : sizeOK x) : sizeOK (reset_min x) := by
  cases x with
  | nil => exact hx
  | mk v p m rv s h l r => simpa [reset_min, sizeOK] using hx

theorem sizeOK_recalc (v p m : Int) (rv : Bool) (s h : Int) (l r : Node)
    (hl : sizeOK l) (hr : sizeOK r) : sizeOK (recalc (.mk v p m rv s h l r)) := by
  have hle := get_size_eq_count l hl
  have hre := get_size_eq_count r hr
  simp only [recalc]
  split
  · rename_i hc
    obtain ⟨hcl, hcr⟩ := hc
    subst hcl; subst hcr
    rw [sizeOK_mk_iff]
    exact ⟨by simp [get_size, count], hl, hr⟩
  · rw [sizeOK_mk_iff]
    refine ⟨?_, hl, hr⟩
    omega

theorem sizeOK_propagate (x : Node) (hx : sizeOK x) : sizeOK (propagate x) := by
  cases x with
  | nil => exact hx
  | mk v p m rv s h l r =>
    rw [sizeOK_mk_iff] at hx
    simp only [propagate]
    split
    · exact sizeOK_recalc _ _ _ _ _ _ _ _
        (sizeOK_flip_rev _ hx.2.2) (sizeOK_flip_rev _ hx.2.1)
    · rw [sizeOK_mk_iff]; exact hx

theorem minCacheOK_mk_iff (v p m : Int) (rv : Bool) (s h : Int) (l r : Node) :
    minCacheOK (.mk v p m rv s h l r) ↔
      m = (if l = Node.nil ∧ r = Node.nil then v
           else min v (min (get_min_value l) (get_min_value r))) ∧
        minCacheOK l ∧ minCacheOK r := by
  simp [minCacheOK, Bool.and_eq_true, beq_iff_eq, and_assoc]

theorem minCacheOK_flip_rev (x : Node) (hx : minCacheOK x) :
    minCacheOK (flip_rev x) := by
  cases x with
  | nil => exact hx
  | mk v p m rv s h l r => simpa [flip_rev, minCacheOK] using hx

theorem minCacheOK_recalc_reset (v p m : Int) (rv : Bool) (s h : Int) (l r : Node)
    (hl : minCacheOK l) (hr : minCacheOK r) :
    minCacheOK (recalc (reset_min (.mk v p m rv s h l r))) := by
  simp only [reset_min, recalc]
  split
  · rename_i hc
    rw [minCacheOK_mk_iff]
    exact ⟨by rw [if_pos hc], hl, hr⟩
  · rename_i hc
    rw [minCacheOK_mk_iff]
    refine ⟨?_, hl, hr⟩
    rw [if_neg hc, imin_eq, imin_eq]

theorem minCacheOK_propagate (x : Node) (hx : minCacheOK x) :
    minCacheOK (propagate x) := by
  cases x with
  | nil => exact hx
  | mk v p m rv s h l r =>
    rw [minCacheOK_mk_iff] at hx
    obtain ⟨hm, hl, hr⟩ := hx
    simp only [propagate]
    split
    · simp only [recalc]
      split
      · rename_i hc
        rw [minCacheOK_mk_iff]
        exact ⟨by rw [if_pos hc], minCacheOK_flip_rev r hr, minCacheOK_flip_rev l hl⟩
      · rename_i hc
        rw [minCacheOK_mk_iff]
        refine ⟨?_, minCacheOK_flip_rev r hr, minCacheOK_flip_rev l hl⟩
        rw [if_neg hc, imin_eq, imin_eq, get_min_value_flip_rev, get_min_value_flip_rev]
        by_cases hlr : l = Node.nil ∧ r = Node.nil
        · exact absurd ⟨(flip_rev_eq_nil_iff r).mpr hlr.2,
            (flip_rev_eq_nil_iff l).mpr hlr.1⟩ hc
        · rw [if_neg hlr] at hm
          rw [hm]
          omega
    · rw [minCacheOK_mk_iff]
      exact ⟨hm, hl, hr⟩

theorem vals_le_iff (b : Int) (x : Node) :
    vals_le b x ↔ ∀ a ∈ seq x, a ≤ b := by
  induction x with
  | nil => simp [vals_le, seq]
  | mk v p m rv s h l r ihl ihr =>
    cases rv <;>
      simp [vals_le, seq, Bool.and_eq_true, decide_eq_true_eq, ihl, ihr] <;>
      aesop

theorem vals_le_mono (b b' : Int) (x : Node) (hbb : b ≤ b')
    (hx : vals_le b x) : vals_le b' x := by
  rw [vals_le_iff] at *
  exact fun a ha => le_trans (hx a ha) hbb

theorem vals_le_of_seq_sub (b : Int) (x y : Node)
    (hsub : ∀ a ∈ seq y, a ∈ seq x) (hx : vals_le b x) : vals_le b y := by
  rw [vals_le_iff] at *
  exact fun a ha => hx a (hsub a ha)

theorem gm_eq_tmin (x : Node) (hc : minCacheOK x) (hv : vals_le (2 ^ 30) x) :
    get_min_value x = tmin x := by
  induction x with
  | nil => rfl
  | mk v p m rv s h l r ihl ihr =>
    rw [minCacheOK_mk_iff] at hc
    obtain ⟨hm, hcl, hcr⟩ := hc
    have hv' : v ≤ 2 ^ 30 ∧ vals_le (2 ^ 30) l ∧ vals_le (2 ^ 30) r := by
      simpa [vals_le, Bool.and_eq_true, decide_eq_true_eq, and_assoc] using hv
    obtain ⟨hvv, hvl, hvr⟩ := hv'
    simp only [get_min_value, tmin]
    rw [hm]
    by_cases hlr : l = Node.nil ∧ r = Node.nil
    · rw [if_pos hlr]
      obtain ⟨h1, h2⟩ := hlr
      subst h1; subst h2
      simp only [tmin]
      omega
    · rw [if_neg hlr, ihl hcl hvl, ihr hcr hvr]

theorem localMinEq_of_minCacheOK (x : Node) (hc : minCacheOK x)
    (hv : vals_le (2 ^ 30) x) : localMinEq x := by
  induction x with
  | nil => exact hc
  | mk v p m rv s h l r ihl ihr =>
    rw [minCacheOK_mk_iff] at hc
    obtain ⟨hm, hcl, hcr⟩ := hc
    have hv' : v ≤ 2 ^ 30 ∧ vals_le (2 ^ 30) l ∧ vals_le (2 ^ 30) r := by
      simpa [vals_le, Bool.and_eq_true, decide_eq_true_eq, and_assoc] using hv
    obtain ⟨hvv, hvl, hvr⟩ := hv'
    simp only [localMinEq, Bool.and_eq_true, beq_iff_eq]
    refine ⟨⟨?_, ihl hcl hvl⟩, ihr hcr hvr⟩
    rw [hm]
    by_cases hlr : l = Node.nil ∧ r = Node.nil
    · rw [if_pos hlr]
      obtain ⟨h1, h2⟩ := hlr
      subst h1; subst h2
      simp only [get_min_value]
      omega
    · rw [if_neg hlr]

/-! ### `merge`: sequence and invariant lemmas -/

/-- A propagated non-null node is non-null and carries a cleared
`reverse` flag. -/
theorem propagate_shape (x : Node) (hx : x ≠ Node.nil) :
    ∃ v p m s h l r, propagate x = .mk v p m false s h l r := by
  cases x with
  | nil => exact absurd rfl hx
  | mk v p m rv s h l r =>
    simp only [propagate]
    split
    · simp only [recalc]
      split
      · exact ⟨v, p, v, _, 0, _, _, rfl⟩
      · exact ⟨v, p, _, _, _, _, _, rfl⟩
    · rename_i hrv
      have hrv' : rv = false := by simpa using hrv
      subst hrv'
      exact ⟨v, p, m, s, h, l, r, rfl⟩

theorem seq_mk_false (v p m : Int) (s h : Int) (l r : Node) :
    seq (.mk v p m false s h l r) = seq l ++ v :: seq r := by
  simp [seq]

theorem seq_merge (a b : Node) : seq (merge a b) = seq a ++ seq b := by
  induction a, b using merge.induct with
  | case1 b => simp [merge, seq]
  | case2 v p m rv s h l r => simp [merge, seq]
  | case3 v1 p1 m1 rv1 s1 h1 l1 r1 v2 p2 m2 rv2 s2 h2 l2 r2 L R hgt ih =>
    have hL : L = propagate (Node.mk v1 p1 m1 rv1 s1 h1 l1 r1) := rfl
    have hR : R = propagate (Node.mk v2 p2 m2 rv2 s2 h2 l2 r2) := rfl
    clear_value L R
    rw [hL, hR] at hgt ih
    obtain ⟨va, pa, ma, sa, ha2, la, ra, hA⟩ :=
      propagate_shape (.mk v1 p1 m1 rv1 s1 h1 l1 r1) (by simp)
    have hsA : seq (Node.mk v1 p1 m1 rv1 s1 h1 l1 r1) = seq la ++ va :: seq ra := by
      rw [← seq_propagate (Node.mk v1 p1 m1 rv1 s1 h1 l1 r1), hA, seq_mk_false]
    rw [hA] at ih
    simp only [right_of] at ih
    simp only [merge]
    rw [if_pos hgt, hA]
    simp only [set_right, right_of]
    rw [seq_recalc, seq_reset_min, seq_mk_false, ih, hsA, seq_propagate]
    simp [List.append_assoc]
  | case4 v1 p1 m1 rv1 s1 h1 l1 r1 v2 p2 m2 rv2 s2 h2 l2 r2 L R hle ih =>
    have hL : L = propagate (Node.mk v1 p1 m1 rv1 s1 h1 l1 r1) := rfl
    have hR : R = propagate (Node.mk v2 p2 m2 rv2 s2 h2 l2 r2) := rfl
    clear_value L R
    rw [hL, hR] at hle ih
    obtain ⟨vb, pb, mb, sb, hb2, lb, rb, hB⟩ :=
      propagate_shape (.mk v2 p2 m2 rv2 s2 h2 l2 r2) (by simp)
    have hsB : seq (Node.mk v2 p2 m2 rv2 s2 h2 l2 r2) = seq lb ++ vb :: seq rb := by
      rw [← seq_propagate (Node.mk v2 p2 m2 rv2 s2 h2 l2 r2), hB, seq_mk_false]
    rw [hB] at ih
    simp only [left_of] at ih
    simp only [merge]
    rw [if_neg hle, hB]
    simp only [set_left, left_of]
    rw [seq_recalc, seq_reset_min, seq_mk_false, ih, hsB]
    rw [seq_propagate]
    simp [List.append_assoc]

theorem count_merge (a b : Node) : count (merge a b) = count a + count b := by
  have h1 := length_seq (merge a b)
  rw [seq_merge, List.length_append, length_seq, length_seq] at h1
  omega

theorem sizeOK_merge (a b : Node) (ha : sizeOK a) (hb : sizeOK b) :
    sizeOK (merge a b) := by
  induction a, b using merge.induct with
  | case1 b => simpa [merge] using hb
  | case2 v p m rv s h l r => simpa [merge] using ha
  | case3 v1 p1 m1 rv1 s1 h1 l1 r1 v2 p2 m2 rv2 s2 h2 l2 r2 L R hgt ih =>
    have hL : L = propagate (Node.mk v1 p1 m1 rv1 s1 h1 l1 r1) := rfl
    have hR : R = propagate (Node.mk v2 p2 m2 rv2 s2 h2 l2 r2) := rfl
    clear_value L R
    rw [hL, hR] at hgt ih
    obtain ⟨va, pa, ma, sa, ha2, la, ra, hA⟩ :=
      propagate_shape (.mk v1 p1 m1 rv1 s1 h1 l1 r1) (by simp)
    have hPOK : sizeOK (Node.mk va pa ma false sa ha2 la ra) := by
      rw [← hA]; exact sizeOK_propagate _ ha
    rw [sizeOK_mk_iff] at hPOK
    obtain ⟨hsz, hla, hra⟩ := hPOK
    have hPB : sizeOK (propagate (Node.mk v2 p2 m2 rv2 s2 h2 l2 r2)) :=
      sizeOK_propagate _ hb
    rw [hA] at ih
    simp only [right_of] at ih
    have hM := ih hra hPB
    simp only [merge]
    rw [if_pos hgt, hA]
    simp only [set_right, right_of, reset_min]
    exact sizeOK_recalc _ _ _ _ _ _ _ _ hla hM
  | case4 v1 p1 m1 rv1 s1 h1 l1 r1 v2 p2 m2 rv2 s2 h2 l2 r2 L R hle ih =>
    have hL : L = propagate (Node.mk v1 p1 m1 rv1 s1 h1 l1 r1) := rfl
    have hR : R = propagate (Node.mk v2 p2 m2 rv2 s2 h2 l2 r2) := rfl
    clear_value L R
    rw [hL, hR] at hle ih
    obtain ⟨vb, pb, mb, sb, hb2, lb, rb, hB⟩ :=
      propagate_shape (.mk v2 p2 m2 rv2 s2 h2 l2 r2) (by simp)
    have hPOK : sizeOK (Node.mk vb pb mb false sb hb2 lb rb) := by
      rw [← hB]; exact sizeOK_propagate _ hb
    rw [sizeOK_mk_iff] at hPOK
    obtain ⟨hsz, hlb, hrb⟩ := hPOK
    have hPA : sizeOK (propagate (Node.mk v1 p1 m1 rv1 s1 h1 l1 r1)) :=
      sizeOK_propagate _ ha
    rw [hB] at ih
    simp only [left_of] at ih
    have hM := ih hPA hlb
    simp only [merge]
    rw [if_neg hle, hB]
    simp only [set_left, left_of, reset_min]
    exact sizeOK_recalc _ _ _ _ _ _ _ _ hM hrb

theorem minCacheOK_merge (a b : Node) (ha : minCacheOK a) (hb : minCacheOK b) :
    minCacheOK (merge a b) := by
  induction a, b using merge.induct with
  | case1 b => simpa [merge] using hb
  | case2 v p m rv s h l r => simpa [merge] using ha
  | case3 v1 p1 m1 rv1 s1 h1 l1 r1 v2 p2 m2 rv2 s2 h2 l2 r2 L R hgt ih =>
    have hL : L = propagate (Node.mk v1 p1 m1 rv1 s1 h1 l1 r1) := rfl
    have hR : R = propagate (Node.mk v2 p2 m2 rv2 s2 h2 l2 r2) := rfl
    clear_value L R
    rw [hL, hR] at hgt ih
    obtain ⟨va, pa, ma, sa, ha2, la, ra, hA⟩ :=
      propagate_shape (.mk v1 p1 m1 rv1 s1 h1 l1 r1) (by simp)
    have hPOK : minCacheOK (Node.mk va pa ma false sa ha2 la ra) := by
      rw [← hA]; exact minCacheOK_propagate _ ha
    rw [minCacheOK_mk_iff] at hPOK
    obtain ⟨hm, hla, hra⟩ := hPOK
    have hPB : minCacheOK (propagate (Node.mk v2 p2 m2 rv2 s2 h2 l2 r2)) :=
      minCacheOK_propagate _ hb
    rw [hA] at ih
    simp only [right_of] at ih
    have hM := ih hra hPB
    simp only [merge]
    rw [if_pos hgt, hA]
    simp only [set_right, right_of]
    exact minCacheOK_recalc_reset _ _ _ _ _ _ _ _ hla hM
  | case4 v1 p1 m1 rv1 s1 h1 l1 r1 v2 p2 m2 rv2 s2 h2 l2 r2 L R hle ih =>
    have hL : L = propagate (Node.mk v1 p1 m1 rv1 s1 h1 l1 r1) := rfl
    have hR : R = propagate (Node.mk v2 p2 m2 rv2 s2 h2 l2 r2) := rfl
    clear_value L R
    rw [hL, hR] at hle ih
    obtain ⟨vb, pb, mb, sb, hb2, lb, rb, hB⟩ :=
      propagate_shape (.mk v2 p2 m2 rv2 s2 h2 l2 r2) (by simp)
    have hPOK : minCacheOK (Node.mk vb pb mb false sb hb2 lb rb) := by
      rw [← hB]; exact minCacheOK_propagate _ hb
    rw [minCacheOK_mk_iff] at hPOK
    obtain ⟨hm, hlb, hrb⟩ := hPOK
    have hPA : minCacheOK (propagate (Node.mk v1 p1 m1 rv1 s1 h1 l1 r1)) :=
      minCacheOK_propagate _ ha
    rw [hB] at ih
    simp only [left_of] at ih
    have hM := ih hPA hlb
    simp only [merge]
    rw [if_neg hle, hB]
    simp only [set_left, left_of]
    exact minCacheOK_recalc_reset _ _ _ _ _ _ _ _ hM hrb

theorem vals_le_merge (bd : Int) (a b : Node) (hva : vals_le bd a)
    (hvb : vals_le bd b) : vals_le bd (merge a b) := by
  rw [vals_le_iff] at *
  rw [seq_merge]
  intro x hx
  rcases List.mem_append.mp hx with hx | hx
  · exact hva x hx
  · exact hvb x hx

/-- Combined correctness of `split` on size-correct treaps: both parts
are size-correct and their sequences are the `take`/`drop` of the
input's sequence at the (clamped) split index. -/
theorem split_spec (t : Node) (k : Int) (hts : sizeOK t) :
    sizeOK (split t k).1 ∧ sizeOK (split t k).2 ∧
    seq (split t k).1 = (seq t).take k.toNat ∧
    seq (split t k).2 = (seq t).drop k.toNat := by
  induction t, k using split.induct with
  | case1 k => simp [split, seq, sizeOK]
  | case2 v p m rv s hh l r index C hc ih =>
    have hC : C = propagate (Node.mk v p m rv s hh l r) := rfl
    clear_value C
    obtain ⟨va, pa, ma, sa, ha2, la, ra, hA⟩ :=
      propagate_shape (.mk v p m rv s hh l r) (by simp)
    rw [hA] at hC
    subst hC
    have hPOK : sizeOK (Node.mk va pa ma false sa ha2 la ra) := by
      rw [← hA]; exact sizeOK_propagate _ hts
    rw [sizeOK_mk_iff] at hPOK
    obtain ⟨hsz, hla, hra⟩ := hPOK
    simp only [left_of] at hc ih
    obtain ⟨ih1, ih2, ih3, ih4⟩ := ih hla
    have hseqt : seq (Node.mk v p m rv s hh l r) = seq la ++ va :: seq ra := by
      rw [← seq_propagate (Node.mk v p m rv s hh l r), hA, seq_mk_false]
    have hgla := get_size_eq_count la hla
    have hlen := length_seq la
    have hidx : index.toNat ≤ (seq la).length := by omega
    simp only [split]
    rw [hA]
    simp only [left_of, set_left]
    rw [if_pos hc]
    refine ⟨ih1, ?_, ?_, ?_⟩
    · simp only [reset_min]
      exact sizeOK_recalc _ _ _ _ _ _ _ _ ih2 hra
    · rw [ih3, hseqt, List.take_append_of_le_length hidx]
    · rw [seq_recalc, seq_reset_min, seq_mk_false, ih4, hseqt,
        List.drop_append_of_le_length hidx]
  | case3 v p m rv s hh l r index C hc ih =>
    have hC : C = propagate (Node.mk v p m rv s hh l r) := rfl
    clear_value C
    obtain ⟨va, pa, ma, sa, ha2, la, ra, hA⟩ :=
      propagate_shape (.mk v p m rv s hh l r) (by simp)
    rw [hA] at hC
    subst hC
    have hPOK : sizeOK (Node.mk va pa ma false sa ha2 la ra) := by
      rw [← hA]; exact sizeOK_propagate _ hts
    rw [sizeOK_mk_iff] at hPOK
    obtain ⟨hsz, hla, hra⟩ := hPOK
    simp only [left_of, right_of] at hc ih
    obtain ⟨ih1, ih2, ih3, ih4⟩ := ih hra
    have hseqt : seq (Node.mk v p m rv s hh l r) = seq la ++ va :: seq ra := by
      rw [← seq_propagate (Node.mk v p m rv s hh l r), hA, seq_mk_false]
    have hgla := get_size_eq_count la hla
    have hlen := length_seq la
    have hgt : index > (count la : Int) := by omega
    have hlenle : (seq la).length ≤ index.toNat := by omega
    simp only [split]
    rw [hA]
    simp only [left_of, right_of, set_right]
    rw [if_neg hc]
    refine ⟨?_, ih2, ?_, ?_⟩
    · simp only [reset_min]
      exact sizeOK_recalc _ _ _ _ _ _ _ _ hla ih1
    · rw [seq_recalc, seq_reset_min, seq_mk_false, ih3, hseqt,
        List.take_append_eq_append_take, List.take_of_length_le hlenle,
        show index.toNat - (seq la).length = (index - get_size la - 1).toNat + 1 from by omega,
        List.take_succ_cons]
    · rw [ih4, hseqt, List.drop_append_eq_append_drop,
        List.drop_of_length_le hlenle,
        show index.toNat - (seq la).length = (index - get_size la - 1).toNat + 1 from by omega,
        List.drop_succ_cons, List.nil_append]

theorem minCacheOK_split (t : Node) (k : Int) (htc : minCacheOK t) :
    minCacheOK (split t k).1 ∧ minCacheOK (split t k).2 := by
  induction t, k using split.induct with
  | case1 k => simp [split, minCacheOK]
  | case2 v p m rv s hh l r index C hc ih =>
    have hC : C = propagate (Node.mk v p m rv s hh l r) := rfl
    clear_value C
    obtain ⟨va, pa, ma, sa, ha2, la, ra, hA⟩ :=
      propagate_shape (.mk v p m rv s hh l r) (by simp)
    rw [hA] at hC
    subst hC
    have hPOK : minCacheOK (Node.mk va pa ma false sa ha2 la ra) := by
      rw [← hA]; exact minCacheOK_propagate _ htc
    rw [minCacheOK_mk_iff] at hPOK
    obtain ⟨hm, hla, hra⟩ := hPOK
    simp only [left_of] at hc ih
    obtain ⟨ih1, ih2⟩ := ih hla
    simp only [split]
    rw [hA]
    simp only [left_of, set_left]
    rw [if_pos hc]
    exact ⟨ih1, minCacheOK_recalc_reset va pa ma false sa ha2 _ _ ih2 hra⟩
  | case3 v p m rv s hh l r index C hc ih =>
    have hC : C = propagate (Node.mk v p m rv s hh l r) := rfl
    clear_value C
    obtain ⟨va, pa, ma, sa, ha2, la, ra, hA⟩ :=
      propagate_shape (.mk v p m rv s hh l r) (by simp)
    rw [hA] at hC
    subst hC
    have hPOK : minCacheOK (Node.mk va pa ma false sa ha2 la ra) := by
      rw [← hA]; exact minCacheOK_propagate _ htc
    rw [minCacheOK_mk_iff] at hPOK
    obtain ⟨hm, hla, hra⟩ := hPOK
    simp only [left_of, right_of] at hc ih
    obtain ⟨ih1, ih2⟩ := ih hra
    simp only [split]
    rw [hA]
    simp only [left_of, right_of, set_right]
    rw [if_neg hc]
    exact ⟨minCacheOK_recalc_reset va pa ma false sa ha2 _ _ hla ih1, ih2⟩

theorem vals_le_split (bd : Int) (t : Node) (k : Int) (hts : sizeOK t)
    (hv : vals_le bd t) : vals_le bd (split t k).1 ∧ vals_le bd (split t k).2 := by
  obtain ⟨-, -, h3, h4⟩ := split_spec t k hts
  rw [vals_le_iff] at hv
  constructor
  · rw [vals_le_iff, h3]
    intro x hx
    exact hv x (List.take_subset _ _ hx)
  · rw [vals_le_iff, h4]
    intro x hx
    exact hv x (List.drop_subset _ _ hx)

theorem vals_le_flip_rev (bd : Int) (x : Node) (hv : vals_le bd x) :
    vals_le bd (flip_rev x) := by
  rw [vals_le_iff] at *
  rw [seq_flip_rev]
  intro a ha
  exact hv a (List.mem_reverse.mp ha)

/-! ### Derived operations -/

theorem count_eq_zero_iff (t : Node) : count t = 0 ↔ t = Node.nil := by
  cases t <;> simp [count]

theorem seq_reverse_subarray (t : Node) (lo hi : Int) (hts : sizeOK t) :
    seq (reverse_subarray t lo hi) =
      (seq t).take lo.toNat ++
        (((seq t).drop lo.toNat).take (hi - lo + 1).toNat).reverse ++
        (seq t).drop ((hi - lo + 1).toNat + lo.toNat) := by
  obtain ⟨hs1, hs2, hq1, hq2⟩ := split_spec t lo hts
  obtain ⟨hs3, hs4, hq3, hq4⟩ := split_spec (split t lo).2 (hi - lo + 1) hs2
  simp only [reverse_subarray]
  rw [seq_merge, seq_merge, seq_flip_rev, hq1, hq3, hq4, hq2, List.drop_drop,
    Nat.add_comm lo.toNat ((hi - lo + 1).toNat)]

theorem sizeOK_reverse_subarray (t : Node) (lo hi : Int) (hts : sizeOK t) :
    sizeOK (reverse_subarray t lo hi) := by
  obtain ⟨hs1, hs2, -, -⟩ := split_spec t lo hts
  obtain ⟨hs3, hs4, -, -⟩ := split_spec (split t lo).2 (hi - lo + 1) hs2
  simp only [reverse_subarray]
  exact sizeOK_merge _ _ (sizeOK_merge _ _ hs1 (sizeOK_flip_rev _ hs3)) hs4

theorem minCacheOK_reverse_subarray (t : Node) (lo hi : Int)
    (htc : minCacheOK t) : minCacheOK (reverse_subarray t lo hi) := by
  obtain ⟨hc1, hc2⟩ := minCacheOK_split t lo htc
  obtain ⟨hc3, hc4⟩ := minCacheOK_split (split t lo).2 (hi - lo + 1) hc2
  simp only [reverse_subarray]
  exact minCacheOK_merge _ _ (minCacheOK_merge _ _ hc1 (minCacheOK_flip_rev _ hc3)) hc4

theorem vals_le_reverse_subarray (bd : Int) (t : Node) (lo hi : Int)
    (hts : sizeOK t) (hv : vals_le bd t) : vals_le bd (reverse_subarray t lo hi) := by
  obtain ⟨hs1, hs2, -, -⟩ := split_spec t lo hts
  obtain ⟨hv1, hv2⟩ := vals_le_split bd t lo hts hv
  obtain ⟨hv3, hv4⟩ := vals_le_split bd (split t lo).2 (hi - lo + 1) hs2 hv2
  simp only [reverse_subarray]
  exact vals_le_merge _ _ _ (vals_le_merge _ _ _ hv1 (vals_le_flip_rev _ _ hv3)) hv4

theorem seq_remove_first (t : Node) (hts : sizeOK t) :
    seq (remove_first t) = (seq t).drop 1 := by
  simp only [remove_first]
  split
  · obtain ⟨-, -, -, hq2⟩ := split_spec t 1 hts
    simpa using hq2
  · rename_i hlt
    have h0 : get_size t = count t := get_size_eq_count t hts
    have h1 : count t = 0 := by omega
    rw [(count_eq_zero_iff t).mp h1]
    simp [seq]

theorem sizeOK_remove_first (t : Node) (hts : sizeOK t) :
    sizeOK (remove_first t) := by
  simp only [remove_first]
  split
  · exact (split_spec t 1 hts).2.1
  · exact hts

theorem minCacheOK_remove_first (t : Node) (htc : minCacheOK t) :
    minCacheOK (remove_first t) := by
  simp only [remove_first]
  split
  · exact (minCacheOK_split t 1 htc).2
  · exact htc

theorem vals_le_remove_first (bd : Int) (t : Node) (hts : sizeOK t)
    (hv : vals_le bd t) : vals_le bd (remove_first t) := by
  simp only [remove_first]
  split
  · exact (vals_le_split bd t 1 hts hv).2
  · exact hv

theorem newNode_eq (v p : Int) : newNode v p = .mk v p v false 1 0 .nil .nil := by
  simp [newNode, recalc, get_size]

theorem seq_newNode (v p : Int) : seq (newNode v p) = [v] := by
  rw [newNode_eq]; simp [seq]

theorem sizeOK_newNode (v p : Int) : sizeOK (newNode v p) := by
  rw [newNode_eq]; simp [sizeOK, count]

theorem minCacheOK_newNode (v p : Int) : minCacheOK (newNode v p) := by
  rw [newNode_eq]; simp [minCacheOK]

theorem vals_le_newNode (bd v p : Int) (hv : v ≤ bd) : vals_le bd (newNode v p) := by
  rw [newNode_eq]; simp [vals_le, hv]

theorem build_loop_seq (rest : List (Int × Int)) (acc : Node) :
    seq (rest.foldl (fun acc vp => merge acc (newNode vp.1 vp.2)) acc) =
      seq acc ++ rest.map Prod.fst := by
  induction rest generalizing acc with
  | nil => simp
  | cons vp rest ih =>
    simp only [List.foldl_cons, List.map_cons]
    rw [ih, seq_merge, seq_newNode]
    simp

theorem build_loop_sizeOK (rest : List (Int × Int)) (acc : Node) (ha : sizeOK acc) :
    sizeOK (rest.foldl (fun acc vp => merge acc (newNode vp.1 vp.2)) acc) := by
  induction rest generalizing acc with
  | nil => exact ha
  | cons vp rest ih =>
    simp only [List.foldl_cons]
    exact ih _ (sizeOK_merge _ _ ha (sizeOK_newNode _ _))

theorem build_loop_minCacheOK (rest : List (Int × Int)) (acc : Node)
    (ha : minCacheOK acc) :
    minCacheOK (rest.foldl (fun acc vp => merge acc (newNode vp.1 vp.2)) acc) := by
  induction rest generalizing acc with
  | nil => exact ha
  | cons vp rest ih =>
    simp only [List.foldl_cons]
    exact ih _ (minCacheOK_merge _ _ ha (minCacheOK_newNode _ _))

theorem build_loop_vals_le (bd : Int) (rest : List (Int × Int)) (acc : Node)
    (ha : vals_le bd acc) (hb : ∀ vp ∈ rest, vp.1 ≤ bd) :
    vals_le bd (rest.foldl (fun acc vp => merge acc (newNode vp.1 vp.2)) acc) := by
  induction rest generalizing acc with
  | nil => exact ha
  | cons vp rest ih =>
    simp only [List.foldl_cons]
    exact ih _ (vals_le_merge _ _ _ ha (vals_le_newNode _ _ _ (hb vp (by simp))))
      (fun q hq => hb q (List.mem_cons_of_mem _ hq))

theorem seq_buildTreap (first : Int × Int) (rest : List (Int × Int)) :
    seq (buildTreap first rest) = first.1 :: rest.map Prod.fst := by
  simp only [buildTreap]
  rw [build_loop_seq, seq_newNode]
  simp

theorem sizeOK_buildTreap (first : Int × Int) (rest : List (Int × Int)) :
    sizeOK (buildTreap first rest) :=
  build_loop_sizeOK _ _ (sizeOK_newNode _ _)

theorem minCacheOK_buildTreap (first : Int × Int) (rest : List (Int × Int)) :
    minCacheOK (buildTreap first rest) :=
  build_loop_minCacheOK _ _ (minCacheOK_newNode _ _)

theorem vals_le_buildTreap (bd : Int) (first : Int × Int) (rest : List (Int × Int))
    (h1 : first.1 ≤ bd) (h2 : ∀ vp ∈ rest, vp.1 ≤ bd) :
    vals_le bd (buildTreap first rest) :=
  build_loop_vals_le _ _ _ (vals_le_newNode _ _ _ h1) h2

/-! ### Correctness of `find_min` -/

theorem vals_le_mk_iff (bd v p m : Int) (rv : Bool) (s h : Int) (l r : Node) :
    vals_le bd (.mk v p m rv s h l r) ↔ v ≤ bd ∧ vals_le bd l ∧ vals_le bd r := by
  simp [vals_le, Bool.and_eq_true, decide_eq_true_eq, and_assoc]

theorem vals_le_propagate (bd : Int) (x : Node) (hv : vals_le bd x) :
    vals_le bd (propagate x) := by
  rw [vals_le_iff] at *
  rw [seq_propagate]
  exact hv

/-- Correctness of `find_min` on a well-formed treap whose values are
all `< 2^30`: it returns `indices_passed` plus the position of an
element of the sequence that equals the subtree minimum. -/
theorem find_min_spec : ∀ (t : Node) (ip : Int), sizeOK t → minCacheOK t →
    vals_le (2 ^ 30 - 1) t → t ≠ Node.nil →
    ∃ j : Nat, find_min t ip = ip + j ∧ j < (seq t).length ∧
      (seq t)[j]? = some (tmin t) := by
  intro t ip
  induction t, ip using find_min.induct with
  | case1 ip => intro _ _ _ hne; exact absurd rfl hne
  | case2 v p m rv s hh l r ip C hcond ih =>
    intro hs hc hv hne
    have hC : C = propagate (Node.mk v p m rv s hh l r) := rfl
    clear_value C
    obtain ⟨va, pa, ma, sa, ha2, la, ra, hA⟩ :=
      propagate_shape (.mk v p m rv s hh l r) (by simp)
    rw [hA] at hC
    subst hC
    have hsP : sizeOK (Node.mk va pa ma false sa ha2 la ra) := by
      rw [← hA]; exact sizeOK_propagate _ hs
    have hcP : minCacheOK (Node.mk va pa ma false sa ha2 la ra) := by
      rw [← hA]; exact minCacheOK_propagate _ hc
    have hvP : vals_le (2 ^ 30 - 1) (Node.mk va pa ma false sa ha2 la ra) := by
      rw [← hA]; exact vals_le_propagate _ _ hv
    rw [sizeOK_mk_iff] at hsP
    obtain ⟨hsz, hsla, hsra⟩ := hsP
    rw [minCacheOK_mk_iff] at hcP
    obtain ⟨hma, hcla, hcra⟩ := hcP
    rw [vals_le_mk_iff] at hvP
    obtain ⟨hva, hvla, hvra⟩ := hvP
    have hgl : get_min_value la = tmin la :=
      gm_eq_tmin la hcla (vals_le_mono _ _ _ (by omega) hvla)
    have hgC : get_min_value (Node.mk va pa ma false sa ha2 la ra) =
        tmin (Node.mk va pa ma false sa ha2 la ra) :=
      gm_eq_tmin _ (by rw [minCacheOK_mk_iff]; exact ⟨hma, hcla, hcra⟩)
        (vals_le_mono _ _ _ (by omega)
          ((vals_le_mk_iff _ _ _ _ _ _ _ _ _).mpr ⟨hva, hvla, hvra⟩))
    simp only [left_of] at hcond ih
    have hmtm : ma = min va (min (tmin la) (tmin ra)) := by
      simpa [get_min_value, tmin] using hgC
    have hmla : ma = tmin la := by
      rw [← hgl]
      simpa [get_min_value] using hcond
    have hlane : la ≠ Node.nil := by
      intro hnil
      subst hnil
      simp only [tmin] at hmla
      omega
    obtain ⟨j, hj1, hj2, hj3⟩ := ih hsla hcla hvla hlane
    have hseqt : seq (Node.mk v p m rv s hh l r) = seq la ++ va :: seq ra := by
      rw [← seq_propagate (Node.mk v p m rv s hh l r), hA, seq_mk_false]
    have htmt : tmin (Node.mk v p m rv s hh l r) = tmin la := by
      rw [← tmin_propagate (Node.mk v p m rv s hh l r), hA]
      simp only [tmin]
      omega
    refine ⟨j, ?_, ?_, ?_⟩
    · simp only [find_min]
      rw [hA]
      simp only [left_of]
      rw [if_pos hcond]
      exact hj1
    · rw [hseqt]
      simp only [List.length_append, List.length_cons]
      omega
    · rw [hseqt, List.getElem?_append_left hj2, hj3, htmt]
  | case3 v p m rv s hh l r ip C index hc1 hc2 ih =>
    intro hs hc hv hne
    have hC : C = propagate (Node.mk v p m rv s hh l r) := rfl
    have hI : index = get_size (left_of C) + ip := rfl
    clear_value index C
    obtain ⟨va, pa, ma, sa, ha2, la, ra, hA⟩ :=
      propagate_shape (.mk v p m rv s hh l r) (by simp)
    rw [hA] at hC
    subst hC
    simp only [left_of] at hI
    subst hI
    have hsP : sizeOK (Node.mk va pa ma false sa ha2 la ra) := by
      rw [← hA]; exact sizeOK_propagate _ hs
    have hcP : minCacheOK (Node.mk va pa ma false sa ha2 la ra) := by
      rw [← hA]; exact minCacheOK_propagate _ hc
    have hvP : vals_le (2 ^ 30 - 1) (Node.mk va pa ma false sa ha2 la ra) := by
      rw [← hA]; exact vals_le_propagate _ _ hv
    rw [sizeOK_mk_iff] at hsP
    obtain ⟨hsz, hsla, hsra⟩ := hsP
    rw [minCacheOK_mk_iff] at hcP
    obtain ⟨hma, hcla, hcra⟩ := hcP
    rw [vals_le_mk_iff] at hvP
    obtain ⟨hva, hvla, hvra⟩ := hvP
    have hgr : get_min_value ra = tmin ra :=
      gm_eq_tmin ra hcra (vals_le_mono _ _ _ (by omega) hvra)
    have hgC : get_min_value (Node.mk va pa ma false sa ha2 la ra) =
        tmin (Node.mk va pa ma false sa ha2 la ra) :=
      gm_eq_tmin _ (by rw [minCacheOK_mk_iff]; exact ⟨hma, hcla, hcra⟩)
        (vals_le_mono _ _ _ (by omega)
          ((vals_le_mk_iff _ _ _ _ _ _ _ _ _).mpr ⟨hva, hvla, hvra⟩))
    simp only [left_of, right_of] at hc1 hc2 ih
    have hmtm : ma = min va (min (tmin la) (tmin ra)) := by
      simpa [get_min_value, tmin] using hgC
    have hmra : ma = tmin ra := by
      rw [← hgr]
      simpa [get_min_value] using hc2
    have hrane : ra ≠ Node.nil := by
      intro hnil
      subst hnil
      simp only [tmin] at hmra
      omega
    obtain ⟨j, hj1, hj2, hj3⟩ := ih hsra hcra hvra hrane
    have hseqt : seq (Node.mk v p m rv s hh l r) = seq la ++ va :: seq ra := by
      rw [← seq_propagate (Node.mk v p m rv s hh l r), hA, seq_mk_false]
    have htmt : tmin (Node.mk v p m rv s hh l r) = tmin ra := by
      rw [← tmin_propagate (Node.mk v p m rv s hh l r), hA]
      simp only [tmin]
      omega
    have hgsla := get_size_eq_count la hsla
    have hlenla := length_seq la
    refine ⟨count la + 1 + j, ?_, ?_, ?_⟩
    · simp only [find_min]
      rw [hA]
      simp only [left_of, right_of]
      rw [if_neg hc1, if_pos hc2, hj1]
      push_cast
      omega
    · rw [hseqt]
      simp only [List.length_append, List.length_cons]
      omega
    · rw [hseqt,
        List.getElem?_append_right (by omega : (seq la).length ≤ count la + 1 + j),
        show count la + 1 + j - (seq la).length = j + 1 from by omega,
        List.getElem?_cons_succ, hj3, htmt]
  | case4 v p m rv s hh l r ip C hc1 hc2 =>
    intro hs hc hv hne
    have hC : C = propagate (Node.mk v p m rv s hh l r) := rfl
    clear_value C
    obtain ⟨va, pa, ma, sa, ha2, la, ra, hA⟩ :=
      propagate_shape (.mk v p m rv s hh l r) (by simp)
    rw [hA] at hC
    subst hC
    have hsP : sizeOK (Node.mk va pa ma false sa ha2 la ra) := by
      rw [← hA]; exact sizeOK_propagate _ hs
    have hcP : minCacheOK (Node.mk va pa ma false sa ha2 la ra) := by
      rw [← hA]; exact minCacheOK_propagate _ hc
    have hvP : vals_le (2 ^ 30 - 1) (Node.mk va pa ma false sa ha2 la ra) := by
      rw [← hA]; exact vals_le_propagate _ _ hv
    rw [sizeOK_mk_iff] at hsP
    obtain ⟨hsz, hsla, hsra⟩ := hsP
    rw [minCacheOK_mk_iff] at hcP
    obtain ⟨hma, hcla, hcra⟩ := hcP
    rw [vals_le_mk_iff] at hvP
    obtain ⟨hva, hvla, hvra⟩ := hvP
    have hgl : get_min_value la = tmin la :=
      gm_eq_tmin la hcla (vals_le_mono _ _ _ (by omega) hvla)
    have hgr : get_min_value ra = tmin ra :=
      gm_eq_tmin ra hcra (vals_le_mono _ _ _ (by omega) hvra)
    have hgC : get_min_value (Node.mk va pa ma false sa ha2 la ra) =
        tmin (Node.mk va pa ma false sa ha2 la ra) :=
      gm_eq_tmin _ (by rw [minCacheOK_mk_iff]; exact ⟨hma, hcla, hcra⟩)
        (vals_le_mono _ _ _ (by omega)
          ((vals_le_mk_iff _ _ _ _ _ _ _ _ _).mpr ⟨hva, hvla, hvra⟩))
    simp only [left_of] at hc1
    simp only [right_of] at hc2
    have hmtm : ma = min va (min (tmin la) (tmin ra)) := by
      simpa [get_min_value, tmin] using hgC
    have hnla : ma ≠ tmin la := by
      rw [← hgl]
      simpa [get_min_value] using hc1
    have hnra : ma ≠ tmin ra := by
      rw [← hgr]
      simpa [get_min_value] using hc2
    have hmva : ma = va := by omega
    have hseqt : seq (Node.mk v p m rv s hh l r) = seq la ++ va :: seq ra := by
      rw [← seq_propagate (Node.mk v p m rv s hh l r), hA, seq_mk_false]
    have htmt : tmin (Node.mk v p m rv s hh l r) = va := by
      rw [← tmin_propagate (Node.mk v p m rv s hh l r), hA]
      simp only [tmin]
      omega
    have hgsla := get_size_eq_count la hsla
    have hlenla := length_seq la
    refine ⟨count la, ?_, ?_, ?_⟩
    · simp only [find_min]
      rw [hA]
      simp only [left_of, right_of]
      rw [if_neg hc1, if_neg hc2]
      omega
    · rw [hseqt]
      simp only [List.length_append, List.length_cons]
      omega
    · rw [hseqt,
        List.getElem?_append_right (by omega : (seq la).length ≤ count la),
        show count la - (seq la).length = 0 from by omega,
        List.getElem?_cons_zero, htmt]

/-- On a treap with a correct min cache and all values `< 2^30`, the
`find_min` traversal only ever recurses into non-null children: the
guard `get_min_value(current) == get_min_value(child)` can only hold
for a non-null child, because the current node's cached minimum is
below the `1 << 30` null sentinel. -/
theorem find_min_safe_of_lt : ∀ t : Node, minCacheOK t →
    vals_le (2 ^ 30 - 1) t → find_min_safe t = true := by
  intro t
  induction t using find_min_safe.induct with
  | case1 => intro _ _; simp [find_min_safe]
  | case2 v p m rv s hh l r C hcond ih =>
    intro hc hv
    have hC : C = propagate (Node.mk v p m rv s hh l r) := rfl
    clear_value C
    obtain ⟨va, pa, ma, sa, ha2, la, ra, hA⟩ :=
      propagate_shape (.mk v p m rv s hh l r) (by simp)
    rw [hA] at hC
    subst hC
    have hcP : minCacheOK (Node.mk va pa ma false sa ha2 la ra) := by
      rw [← hA]; exact minCacheOK_propagate _ hc
    have hvP : vals_le (2 ^ 30 - 1) (Node.mk va pa ma false sa ha2 la ra) := by
      rw [← hA]; exact vals_le_propagate _ _ hv
    rw [minCacheOK_mk_iff] at hcP
    obtain ⟨hma, hcla, hcra⟩ := hcP
    rw [vals_le_mk_iff] at hvP
    obtain ⟨hva, hvla, hvra⟩ := hvP
    have hgl : get_min_value la = tmin la :=
      gm_eq_tmin la hcla (vals_le_mono _ _ _ (by omega) hvla)
    have hgC : get_min_value (Node.mk va pa ma false sa ha2 la ra) =
        tmin (Node.mk va pa ma false sa ha2 la ra) :=
      gm_eq_tmin _ (by rw [minCacheOK_mk_iff]; exact ⟨hma, hcla, hcra⟩)
        (vals_le_mono _ _ _ (by omega)
          ((vals_le_mk_iff _ _ _ _ _ _ _ _ _).mpr ⟨hva, hvla, hvra⟩))
    simp only [left_of] at hcond ih
    have hmtm : ma = min va (min (tmin la) (tmin ra)) := by
      simpa [get_min_value, tmin] using hgC
    have hmla : ma = tmin la := by
      rw [← hgl]
      simpa [get_min_value] using hcond
    have hlane : la ≠ Node.nil := by
      intro hnil
      subst hnil
      simp only [tmin] at hmla
      omega
    simp only [find_min_safe]
    rw [hA]
    simp only [left_of]
    rw [if_pos hcond]
    simp [hlane, ih hcla hvla]
  | case3 v p m rv s hh l r C hc1 hc2 ih =>
    intro hc hv
    have hC : C = propagate (Node.mk v p m rv s hh l r) := rfl
    clear_value C
    obtain ⟨va, pa, ma, sa, ha2, la, ra, hA⟩ :=
      propagate_shape (.mk v p m rv s hh l r) (by simp)
    rw [hA] at hC
    subst hC
    have hcP : minCacheOK (Node.mk va pa ma false sa ha2 la ra) := by
      rw [← hA]; exact minCacheOK_propagate _ hc
    have hvP : vals_le (2 ^ 30 - 1) (Node.mk va pa ma false sa ha2 la ra) := by
      rw [← hA]; exact vals_le_propagate _ _ hv
    rw [minCacheOK_mk_iff] at hcP
    obtain ⟨hma, hcla, hcra⟩ := hcP
    rw [vals_le_mk_iff] at hvP
    obtain ⟨hva, hvla, hvra⟩ := hvP
    have hgr : get_min_value ra = tmin ra :=
      gm_eq_tmin ra hcra (vals_le_mono _ _ _ (by omega) hvra)
    have hgC : get_min_value (Node.mk va pa ma false sa ha2 la ra) =
        tmin (Node.mk va pa ma false sa ha2 la ra) :=
      gm_eq_tmin _ (by rw [minCacheOK_mk_iff]; exact ⟨hma, hcla, hcra⟩)
        (vals_le_mono _ _ _ (by omega)
          ((vals_le_mk_iff _ _ _ _ _ _ _ _ _).mpr ⟨hva, hvla, hvra⟩))
    simp only [left_of, right_of] at hc1 hc2 ih
    have hmtm : ma = min va (min (tmin la) (tmin ra)) := by
      simpa [get_min_value, tmin] using hgC
    have hmra : ma = tmin ra := by
      rw [← hgr]
      simpa [get_min_value] using hc2
    have hrane : ra ≠ Node.nil := by
      intro hnil
      subst hnil
      simp only [tmin] at hmra
      omega
    simp only [find_min_safe]
    rw [hA]
    simp only [left_of, right_of]
    rw [if_neg hc1, if_pos hc2]
    simp [hrane, ih hcra hvra]
  | case4 v p m rv s hh l r C hc1 hc2 =>
    intro hc hv
    have hC : C = propagate (Node.mk v p m rv s hh l r) := rfl
    clear_value C
    obtain ⟨va, pa, ma, sa, ha2, la, ra, hA⟩ :=
      propagate_shape (.mk v p m rv s hh l r) (by simp)
    rw [hA] at hC
    subst hC
    simp only [left_of, right_of] at hc1 hc2
    simp only [find_min_safe]
    rw [hA]
    simp only [left_of, right_of]
    rw [if_neg hc1, if_neg hc2]

/-! ### Reachable treap states -/

/-- Treaps reachable through the public operations of the program:
building by folding `merge` over single-node treaps (arbitrary values
and priorities), reversing a range that is valid for the current size,
and removing the first element.  `find_min` performs no logical state
change. -/
inductive Reachable : Node → Prop where
  | build (first : Int × Int) (rest : List (Int × Int)) :
      Reachable (buildTreap first rest)
  | reverse (t : Node) (lo hi : Int) (ht : Reachable t) (h0 : 0 ≤ lo)
      (hlh : lo ≤ hi) (hhi : hi < get_size t) :
      Reachable (reverse_subarray t lo hi)
  | removeFirst (t : Node) (ht : Reachable t) : Reachable (remove_first t)

theorem reachable_sizeOK (t : Node) (ht : Reachable t) : sizeOK t := by
  induction ht with
  | build first rest => exact sizeOK_buildTreap first rest
  | reverse t lo hi ht h0 hlh hhi ih => exact sizeOK_reverse_subarray t lo hi ih
  | removeFirst t ht ih => exact sizeOK_remove_first t ih

theorem reachable_minCacheOK (t : Node) (ht : Reachable t) : minCacheOK t := by
  induction ht with
  | build first rest => exact minCacheOK_buildTreap first rest
  | reverse t lo hi ht h0 hlh hhi ih => exact minCacheOK_reverse_subarray t lo hi ih
  | removeFirst t ht ih => exact minCacheOK_remove_first t ih

/-! ### Evaluation helpers for the driver example -/

/-- Evaluation of `find_min` at a concrete position: if position `j` holds the
subtree minimum and is the only position that does, `find_min` from
`indices_passed = 0` returns exactly `j`. -/
theorem find_min_at (t : Node) (j : Nat) (hs : sizeOK t) (hc : minCacheOK t)
    (hv : vals_le (2 ^ 30 - 1) t) (hj : j < (seq t).length)
    (hjv : (seq t)[j]? = some (tmin t))
    (huniq : ∀ i : Nat, i < (seq t).length → (seq t)[i]? = some (tmin t) → i = j) :
    find_min t 0 = j := by
  have hne : t ≠ Node.nil := by
    intro h
    subst h
    simp [seq] at hj
  obtain ⟨j', h1, h2, h3⟩ := find_min_spec t 0 hs hc hv hne
  have hjj := huniq j' h2 h3
  subst hjj
  omega

theorem run_queries_zero (root : Node) (i : Int) :
    run_queries root i 0 = ([], root) := rfl

theorem run_queries_succ (root : Node) (i : Int) (n : Nat) :
    run_queries root i (n + 1) =
      ((find_min root 0 + i + 1) ::
        (run_queries (if find_min root 0 ≠ 0 then
            remove_first (reverse_subarray root 0 (find_min root 0))
          else remove_first root) (i + 1) n).1,
       (run_queries (if find_min root 0 ≠ 0 then
            remove_first (reverse_subarray root 0 (find_min root 0))
          else remove_first root) (i + 1) n).2) := rfl

theorem run_queries_removed_zero (root : Node) (i : Int) :
    run_queries_removed root i 0 = [] := rfl

theorem run_queries_removed_succ (root : Node) (i : Int) (n : Nat) :
    run_queries_removed root i (n + 1) =
      (seq (if find_min root 0 ≠ 0 then reverse_subarray root 0 (find_min root 0)
            else root)).take 1 ++
        run_queries_removed
          (remove_first (if find_min root 0 ≠ 0 then
              reverse_subarray root 0 (find_min root 0)
            else root)) (i + 1) n := rfl

/-- The four-step driver run on the sequence `[4, 2, 1, 3]`, for every
choice of the four node priorities: the emitted outputs are
`[3, 2, 4, 4]`, the elements discarded by `remove_first` are, in
order, `[1, 2, 3, 4]` (the sorted input), and the final treap is
empty. -/
theorem claim_C8_driver_example (p0 p1 p2 p3 : Int) :
    (run_queries (buildTreap (4, p0) [(2, p1), (1, p2), (3, p3)]) 0 4).1 = [3, 2, 4, 4] ∧
    run_queries_removed (buildTreap (4, p0) [(2, p1), (1, p2), (3, p3)]) 0 4 = [1, 2, 3, 4] ∧
    seq (run_queries (buildTreap (4, p0) [(2, p1), (1, p2), (3, p3)]) 0 4).2 = [] := by
  -- state A: the built treap, sequence [4, 2, 1, 3]
  have hAs : sizeOK (buildTreap (4, p0) [(2, p1), (1, p2), (3, p3)]) := sizeOK_buildTreap _ _
  have hAc : minCacheOK (buildTreap (4, p0) [(2, p1), (1, p2), (3, p3)]) := minCacheOK_buildTreap _ _
  have hAq : seq (buildTreap (4, p0) [(2, p1), (1, p2), (3, p3)]) = [4, 2, 1, 3] := by
    rw [seq_buildTreap]; rfl
  have hAv : vals_le (2 ^ 30 - 1) (buildTreap (4, p0) [(2, p1), (1, p2), (3, p3)]) := by
    rw [vals_le_iff, hAq]; decide
  have hAm : tmin (buildTreap (4, p0) [(2, p1), (1, p2), (3, p3)]) = 1 := by rw [tmin_eq_listMin, hAq]; decide
  have hfA : find_min (buildTreap (4, p0) [(2, p1), (1, p2), (3, p3)]) 0 = 2 :=
    find_min_at _ 2 hAs hAc hAv (by rw [hAq]; decide)
      (by rw [hAq, hAm]; decide)
      (by rw [hAq, hAm]; decide)
  -- after reversing positions 0..2: sequence [1, 2, 4, 3]
  have hArs : sizeOK (reverse_subarray (buildTreap (4, p0) [(2, p1), (1, p2), (3, p3)]) 0 2) := sizeOK_reverse_subarray _ _ _ hAs
  have hArc : minCacheOK (reverse_subarray (buildTreap (4, p0) [(2, p1), (1, p2), (3, p3)]) 0 2) := minCacheOK_reverse_subarray _ _ _ hAc
  have hArq : seq (reverse_subarray (buildTreap (4, p0) [(2, p1), (1, p2), (3, p3)]) 0 2) = [1, 2, 4, 3] := by
    rw [seq_reverse_subarray _ _ _ hAs, hAq]; decide
  -- state B: first element removed, sequence [2, 4, 3]
  have hBs : sizeOK (remove_first (reverse_subarray (buildTreap (4, p0) [(2, p1), (1, p2), (3, p3)]) 0 2)) := sizeOK_remove_first _ hArs
  have hBc : minCacheOK (remove_first (reverse_subarray (buildTreap (4, p0) [(2, p1), (1, p2), (3, p3)]) 0 2)) := minCacheOK_remove_first _ hArc
  have hBq : seq (remove_first (reverse_subarray (buildTreap (4, p0) [(2, p1), (1, p2), (3, p3)]) 0 2)) = [2, 4, 3] := by
    rw [seq_remove_first _ hArs, hArq]
    rfl
  have hBv : vals_le (2 ^ 30 - 1) (remove_first (reverse_subarray (buildTreap (4, p0) [(2, p1), (1, p2), (3, p3)]) 0 2)) := by
    rw [vals_le_iff, hBq]; decide
  have hBm : tmin (remove_first (reverse_subarray (buildTreap (4, p0) [(2, p1), (1, p2), (3, p3)]) 0 2)) = 2 := by rw [tmin_eq_listMin, hBq]; decide
  have hfB : find_min (remove_first (reverse_subarray (buildTreap (4, p0) [(2, p1), (1, p2), (3, p3)]) 0 2)) 0 = 0 :=
    find_min_at _ 0 hBs hBc hBv (by rw [hBq]; decide)
      (by rw [hBq, hBm]; decide)
      (by rw [hBq, hBm]; decide)
  -- state C: sequence [4, 3]
  have hCs : sizeOK (remove_first (remove_first (reverse_subarray (buildTreap (4, p0) [(2, p1), (1, p2), (3, p3)]) 0 2))) := sizeOK_remove_first _ hBs
  have hCc : minCacheOK (remove_first (remove_first (reverse_subarray (buildTreap (4, p0) [(2, p1), (1, p2), (3, p3)]) 0 2))) := minCacheOK_remove_first _ hBc
  have hCq : seq (remove_first (remove_first (reverse_subarray (buildTreap (4, p0) [(2, p1), (1, p2), (3, p3)]) 0 2))) = [4, 3] := by
    rw [seq_remove_first _ hBs, hBq]
    rfl
  have hCv : vals_le (2 ^ 30 - 1) (remove_first (remove_first (reverse_subarray (buildTreap (4, p0) [(2, p1), (1, p2), (3, p3)]) 0 2))) := by
    rw [vals_le_iff, hCq]; decide
  have hCm : tmin (remove_first (remove_first (reverse_subarray (buildTreap (4, p0) [(2, p1), (1, p2), (3, p3)]) 0 2))) = 3 := by rw [tmin_eq_listMin, hCq]; decide
  have hfC : find_min (remove_first (remove_first (reverse_subarray (buildTreap (4, p0) [(2, p1), (1, p2), (3, p3)]) 0 2))) 0 = 1 :=
    find_min_at _ 1 hCs hCc hCv (by rw [hCq]; decide)
      (by rw [hCq, hCm]; decide)
      (by rw [hCq, hCm]; decide)
  -- after reversing positions 0..1: sequence [3, 4]
  have hCrs : sizeOK (reverse_subarray (remove_first (remove_first (reverse_subarray (buildTreap (4, p0) [(2, p1), (1, p2), (3, p3)]) 0 2))) 0 1) := sizeOK_reverse_subarray _ _ _ hCs
  have hCrc : minCacheOK (reverse_subarray (remove_first (remove_first (reverse_subarray (buildTreap (4, p0) [(2, p1), (1, p2), (3, p3)]) 0 2))) 0 1) := minCacheOK_reverse_subarray _ _ _ hCc
  have hCrq : seq (reverse_subarray (remove_first (remove_first (reverse_subarray (buildTreap (4, p0) [(2, p1), (1, p2), (3, p3)]) 0 2))) 0 1) = [3, 4] := by
    rw [seq_reverse_subarray _ _ _ hCs, hCq]; decide
  -- state D: sequence [4]
  have hDs : sizeOK (remove_first (reverse_subarray (remove_first (remove_first (reverse_subarray (buildTreap (4, p0) [(2, p1), (1, p2), (3, p3)]) 0 2))) 0 1)) := sizeOK_remove_first _ hCrs
  have hDc : minCacheOK (remove_first (reverse_subarray (remove_first (remove_first (reverse_subarray (buildTreap (4, p0) [(2, p1), (1, p2), (3, p3)]) 0 2))) 0 1)) := minCacheOK_remove_first _ hCrc
  have hDq : seq (remove_first (reverse_subarray (remove_first (remove_first (reverse_subarray (buildTreap (4, p0) [(2, p1), (1, p2), (3, p3)]) 0 2))) 0 1)) = [4] := by
    rw [seq_remove_first _ hCrs, hCrq]
    rfl
  have hDv : vals_le (2 ^ 30 - 1) (remove_first (reverse_subarray (remove_first (remove_first (reverse_subarray (buildTreap (4, p0) [(2, p1), (1, p2), (3, p3)]) 0 2))) 0 1)) := by
    rw [vals_le_iff, hDq]; decide
  have hDm : tmin (remove_first (reverse_subarray (remove_first (remove_first (reverse_subarray (buildTreap (4, p0) [(2, p1), (1, p2), (3, p3)]) 0 2))) 0 1)) = 4 := by rw [tmin_eq_listMin, hDq]; decide
  have hfD : find_min (remove_first (reverse_subarray (remove_first (remove_first (reverse_subarray (buildTreap (4, p0) [(2, p1), (1, p2), (3, p3)]) 0 2))) 0 1)) 0 = 0 :=
    find_min_at _ 0 hDs hDc hDv (by rw [hDq]; decide)
      (by rw [hDq, hDm]; decide)
      (by rw [hDq, hDm]; decide)
  -- state E: empty
  have hEq : seq (remove_first (remove_first (reverse_subarray (remove_first (remove_first (reverse_subarray (buildTreap (4, p0) [(2, p1), (1, p2), (3, p3)]) 0 2))) 0 1))) = [] := by
    rw [seq_remove_first _ hDs, hDq]
    rfl
  -- unfold the four steps of run_queries
  have e1 : run_queries (buildTreap (4, p0) [(2, p1), (1, p2), (3, p3)]) 0 4 =
      ((find_min (buildTreap (4, p0) [(2, p1), (1, p2), (3, p3)]) 0 + 0 + 1) ::
        (run_queries (if find_min (buildTreap (4, p0) [(2, p1), (1, p2), (3, p3)]) 0 ≠ 0 then
            remove_first (reverse_subarray (buildTreap (4, p0) [(2, p1), (1, p2), (3, p3)]) 0 (find_min (buildTreap (4, p0) [(2, p1), (1, p2), (3, p3)]) 0))
          else remove_first (buildTreap (4, p0) [(2, p1), (1, p2), (3, p3)])) 1 3).1,
       (run_queries (if find_min (buildTreap (4, p0) [(2, p1), (1, p2), (3, p3)]) 0 ≠ 0 then
            remove_first (reverse_subarray (buildTreap (4, p0) [(2, p1), (1, p2), (3, p3)]) 0 (find_min (buildTreap (4, p0) [(2, p1), (1, p2), (3, p3)]) 0))
          else remove_first (buildTreap (4, p0) [(2, p1), (1, p2), (3, p3)])) 1 3).2) := run_queries_succ (buildTreap (4, p0) [(2, p1), (1, p2), (3, p3)]) 0 3
  rw [hfA, if_pos (by decide : ((2 : Int) ≠ 0))] at e1
  have e2 : run_queries (remove_first (reverse_subarray (buildTreap (4, p0) [(2, p1), (1, p2), (3, p3)]) 0 2)) 1 3 =
      ((find_min (remove_first (reverse_subarray (buildTreap (4, p0) [(2, p1), (1, p2), (3, p3)]) 0 2)) 0 + 1 + 1) ::
        (run_queries (if find_min (remove_first (reverse_subarray (buildTreap (4, p0) [(2, p1), (1, p2), (3, p3)]) 0 2)) 0 ≠ 0 then
            remove_first (reverse_subarray (remove_first (reverse_subarray (buildTreap (4, p0) [(2, p1), (1, p2), (3, p3)]) 0 2)) 0 (find_min (remove_first (reverse_subarray (buildTreap (4, p0) [(2, p1), (1, p2), (3, p3)]) 0 2)) 0))
          else remove_first (remove_first (reverse_subarray (buildTreap (4, p0) [(2, p1), (1, p2), (3, p3)]) 0 2))) 2 2).1,
       (run_queries (if find_min (remove_first (reverse_subarray (buildTreap (4, p0) [(2, p1), (1, p2), (3, p3)]) 0 2)) 0 ≠ 0 then
            remove_first (reverse_subarray (remove_first (reverse_subarray (buildTreap (4, p0) [(2, p1), (1, p2), (3, p3)]) 0 2)) 0 (find_min (remove_first (reverse_subarray (buildTreap (4, p0) [(2, p1), (1, p2), (3, p3)]) 0 2)) 0))
          else remove_first (remove_first (reverse_subarray (buildTreap (4, p0) [(2, p1), (1, p2), (3, p3)]) 0 2))) 2 2).2) := run_queries_succ (remove_first (reverse_subarray (buildTreap (4, p0) [(2, p1), (1, p2), (3, p3)]) 0 2)) 1 2
  rw [hfB, if_neg (by decide : ¬((0 : Int) ≠ 0))] at e2
  have e3 : run_queries (remove_first (remove_first (reverse_subarray (buildTreap (4, p0) [(2, p1), (1, p2), (3, p3)]) 0 2))) 2 2 =
      ((find_min (remove_first (remove_first (reverse_subarray (buildTreap (4, p0) [(2, p1), (1, p2), (3, p3)]) 0 2))) 0 + 2 + 1) ::
        (run_queries (if find_min (remove_first (remove_first (reverse_subarray (buildTreap (4, p0) [(2, p1), (1, p2), (3, p3)]) 0 2))) 0 ≠ 0 then
            remove_first (reverse_subarray (remove_first (remove_first (reverse_subarray (buildTreap (4, p0) [(2, p1), (1, p2), (3, p3)]) 0 2))) 0 (find_min (remove_first (remove_first (reverse_subarray (buildTreap (4, p0) [(2, p1), (1, p2), (3, p3)]) 0 2))) 0))
          else remove_first (remove_first (remove_first (reverse_subarray (buildTreap (4, p0) [(2, p1), (1, p2), (3, p3)]) 0 2)))) 3 1).1,
       (run_queries (if find_min (remove_first (remove_first (reverse_subarray (buildTreap (4, p0) [(2, p1), (1, p2), (3, p3)]) 0 2))) 0 ≠ 0 then
            remove_first (reverse_subarray (remove_first (remove_first (reverse_subarray (buildTreap (4, p0) [(2, p1), (1, p2), (3, p3)]) 0 2))) 0 (find_min (remove_first (remove_first (reverse_subarray (buildTreap (4, p0) [(2, p1), (1, p2), (3, p3)]) 0 2))) 0))
          else remove_first (remove_first (remove_first (reverse_subarray (buildTreap (4, p0) [(2, p1), (1, p2), (3, p3)]) 0 2)))) 3 1).2) := run_queries_succ (remove_first (remove_first (reverse_subarray (buildTreap (4, p0) [(2, p1), (1, p2), (3, p3)]) 0 2))) 2 1
  rw [hfC, if_pos (by decide : ((1 : Int) ≠ 0))] at e3
  have e4 : run_queries (remove_first (reverse_subarray (remove_first (remove_first (reverse_subarray (buildTreap (4, p0) [(2, p1), (1, p2), (3, p3)]) 0 2))) 0 1)) 3 1 =
      ((find_min (remove_first (reverse_subarray (remove_first (remove_first (reverse_subarray (buildTreap (4, p0) [(2, p1), (1, p2), (3, p3)]) 0 2))) 0 1)) 0 + 3 + 1) ::
        (run_queries (if find_min (remove_first (reverse_subarray (remove_first (remove_first (reverse_subarray (buildTreap (4, p0) [(2, p1), (1, p2), (3, p3)]) 0 2))) 0 1)) 0 ≠ 0 then
            remove_first (reverse_subarray (remove_first (reverse_subarray (remove_first (remove_first (reverse_subarray (buildTreap (4, p0) [(2, p1), (1, p2), (3, p3)]) 0 2))) 0 1)) 0 (find_min (remove_first (reverse_subarray (remove_first (remove_first (reverse_subarray (buildTreap (4, p0) [(2, p1), (1, p2), (3, p3)]) 0 2))) 0 1)) 0))
          else remove_first (remove_first (reverse_subarray (remove_first (remove_first (reverse_subarray (buildTreap (4, p0) [(2, p1), (1, p2), (3, p3)]) 0 2))) 0 1))) 4 0).1,
       (run_queries (if find_min (remove_first (reverse_subarray (remove_first (remove_first (reverse_subarray (buildTreap (4, p0) [(2, p1), (1, p2), (3, p3)]) 0 2))) 0 1)) 0 ≠ 0 then
            remove_first (reverse_subarray (remove_first (reverse_subarray (remove_first (remove_first (reverse_subarray (buildTreap (4, p0) [(2, p1), (1, p2), (3, p3)]) 0 2))) 0 1)) 0 (find_min (remove_first (reverse_subarray (remove_first (remove_first (reverse_subarray (buildTreap (4, p0) [(2, p1), (1, p2), (3, p3)]) 0 2))) 0 1)) 0))
          else remove_first (remove_first (reverse_subarray (remove_first (remove_first (reverse_subarray (buildTreap (4, p0) [(2, p1), (1, p2), (3, p3)]) 0 2))) 0 1))) 4 0).2) := run_queries_succ (remove_first (reverse_subarray (remove_first (remove_first (reverse_subarray (buildTreap (4, p0) [(2, p1), (1, p2), (3, p3)]) 0 2))) 0 1)) 3 0
  rw [hfD, if_neg (by decide : ¬((0 : Int) ≠ 0)), run_queries_zero] at e4
  -- unfold the four steps of run_queries_removed
  have r1 : run_queries_removed (buildTreap (4, p0) [(2, p1), (1, p2), (3, p3)]) 0 4 =
      (seq (if find_min (buildTreap (4, p0) [(2, p1), (1, p2), (3, p3)]) 0 ≠ 0 then
          reverse_subarray (buildTreap (4, p0) [(2, p1), (1, p2), (3, p3)]) 0 (find_min (buildTreap (4, p0) [(2, p1), (1, p2), (3, p3)]) 0) else (buildTreap (4, p0) [(2, p1), (1, p2), (3, p3)]))).take 1 ++
        run_queries_removed (remove_first (if find_min (buildTreap (4, p0) [(2, p1), (1, p2), (3, p3)]) 0 ≠ 0 then
          reverse_subarray (buildTreap (4, p0) [(2, p1), (1, p2), (3, p3)]) 0 (find_min (buildTreap (4, p0) [(2, p1), (1, p2), (3, p3)]) 0) else (buildTreap (4, p0) [(2, p1), (1, p2), (3, p3)]))) 1 3 :=
    run_queries_removed_succ (buildTreap (4, p0) [(2, p1), (1, p2), (3, p3)]) 0 3
  rw [hfA, if_pos (by decide : ((2 : Int) ≠ 0)), hArq] at r1
  have r2 : run_queries_removed (remove_first (reverse_subarray (buildTreap (4, p0) [(2, p1), (1, p2), (3, p3)]) 0 2)) 1 3 =
      (seq (if find_min (remove_first (reverse_subarray (buildTreap (4, p0) [(2, p1), (1, p2), (3, p3)]) 0 2)) 0 ≠ 0 then
          reverse_subarray (remove_first (reverse_subarray (buildTreap (4, p0) [(2, p1), (1, p2), (3, p3)]) 0 2)) 0 (find_min (remove_first (reverse_subarray (buildTreap (4, p0) [(2, p1), (1, p2), (3, p3)]) 0 2)) 0) else (remove_first (reverse_subarray (buildTreap (4, p0) [(2, p1), (1, p2), (3, p3)]) 0 2)))).take 1 ++
        run_queries_removed (remove_first (if find_min (remove_first (reverse_subarray (buildTreap (4, p0) [(2, p1), (1, p2), (3, p3)]) 0 2)) 0 ≠ 0 then
          reverse_subarray (remove_first (reverse_subarray (buildTreap (4, p0) [(2, p1), (1, p2), (3, p3)]) 0 2)) 0 (find_min (remove_first (reverse_subarray (buildTreap (4, p0) [(2, p1), (1, p2), (3, p3)]) 0 2)) 0) else (remove_first (reverse_subarray (buildTreap (4, p0) [(2, p1), (1, p2), (3, p3)]) 0 2)))) 2 2 :=
    run_queries_removed_succ (remove_first (reverse_subarray (buildTreap (4, p0) [(2, p1), (1, p2), (3, p3)]) 0 2)) 1 2
  rw [hfB, if_neg (by decide : ¬((0 : Int) ≠ 0)), hBq] at r2
  have r3 : run_queries_removed (remove_first (remove_first (reverse_subarray (buildTreap (4, p0) [(2, p1), (1, p2), (3, p3)]) 0 2))) 2 2 =
      (seq (if find_min (remove_first (remove_first (reverse_subarray (buildTreap (4, p0) [(2, p1), (1, p2), (3, p3)]) 0 2))) 0 ≠ 0 then
          reverse_subarray (remove_first (remove_first (reverse_subarray (buildTreap (4, p0) [(2, p1), (1, p2), (3, p3)]) 0 2))) 0 (find_min (remove_first (remove_first (reverse_subarray (buildTreap (4, p0) [(2, p1), (1, p2), (3, p3)]) 0 2))) 0) else (remove_first (remove_first (reverse_subarray (buildTreap (4, p0) [(2, p1), (1, p2), (3, p3)]) 0 2))))).take 1 ++
        run_queries_removed (remove_first (if find_min (remove_first (remove_first (reverse_subarray (buildTreap (4, p0) [(2, p1), (1, p2), (3, p3)]) 0 2))) 0 ≠ 0 then
          reverse_subarray (remove_first (remove_first (reverse_subarray (buildTreap (4, p0) [(2, p1), (1, p2), (3, p3)]) 0 2))) 0 (find_min (remove_first (remove_first (reverse_subarray (buildTreap (4, p0) [(2, p1), (1, p2), (3, p3)]) 0 2))) 0) else (remove_first (remove_first (reverse_subarray (buildTreap (4, p0) [(2, p1), (1, p2), (3, p3)]) 0 2))))) 3 1 :=
    run_queries_removed_succ (remove_first (remove_first (reverse_subarray (buildTreap (4, p0) [(2, p1), (1, p2), (3, p3)]) 0 2))) 2 1
  rw [hfC, if_pos (by decide : ((1 : Int) ≠ 0)), hCrq] at r3
  have r4 : run_queries_removed (remove_first (reverse_subarray (remove_first (remove_first (reverse_subarray (buildTreap (4, p0) [(2, p1), (1, p2), (3, p3)]) 0 2))) 0 1)) 3 1 =
      (seq (if find_min (remove_first (reverse_subarray (remove_first (remove_first (reverse_subarray (buildTreap (4, p0) [(2, p1), (1, p2), (3, p3)]) 0 2))) 0 1)) 0 ≠ 0 then
          reverse_subarray (remove_first (reverse_subarray (remove_first (remove_first (reverse_subarray (buildTreap (4, p0) [(2, p1), (1, p2), (3, p3)]) 0 2))) 0 1)) 0 (find_min (remove_first (reverse_subarray (remove_first (remove_first (reverse_subarray (buildTreap (4, p0) [(2, p1), (1, p2), (3, p3)]) 0 2))) 0 1)) 0) else (remove_first (reverse_subarray (remove_first (remove_first (reverse_subarray (buildTreap (4, p0) [(2, p1), (1, p2), (3, p3)]) 0 2))) 0 1)))).take 1 ++
        run_queries_removed (remove_first (if find_min (remove_first (reverse_subarray (remove_first (remove_first (reverse_subarray (buildTreap (4, p0) [(2, p1), (1, p2), (3, p3)]) 0 2))) 0 1)) 0 ≠ 0 then
          reverse_subarray (remove_first (reverse_subarray (remove_first (remove_first (reverse_subarray (buildTreap (4, p0) [(2, p1), (1, p2), (3, p3)]) 0 2))) 0 1)) 0 (find_min (remove_first (reverse_subarray (remove_first (remove_first (reverse_subarray (buildTreap (4, p0) [(2, p1), (1, p2), (3, p3)]) 0 2))) 0 1)) 0) else (remove_first (reverse_subarray (remove_first (remove_first (reverse_subarray (buildTreap (4, p0) [(2, p1), (1, p2), (3, p3)]) 0 2))) 0 1)))) 4 0 :=
    run_queries_removed_succ (remove_first (reverse_subarray (remove_first (remove_first (reverse_subarray (buildTreap (4, p0) [(2, p1), (1, p2), (3, p3)]) 0 2))) 0 1)) 3 0
  rw [hfD, if_neg (by decide : ¬((0 : Int) ≠ 0)), hDq, run_queries_removed_zero] at r4
  refine ⟨?_, ?_, ?_⟩
  · rw [e1, e2, e3, e4]
    norm_num
  · rw [r1, r2, r3, r4]
    norm_num
  · rw [e1, e2, e3, e4]
    exact hEq

/-! ### Helpers for the claim theorems -/

/-- Merging two freshly constructed single-node treaps when the left
priority is strictly larger: the left node becomes the root and the
cached minimum is clamped through the `1 << 30` null sentinel. -/
theorem merge_two_leaves (a pa b pb : Int) (hp : pa > pb) :
    merge (newNode a pa) (newNode b pb) =
      Node.mk a pa (imin a (imin (2 ^ 30) b)) false 2 1 Node.nil
        (Node.mk b pb b false 1 0 Node.nil Node.nil) := by
  rw [newNode_eq, newNode_eq]
  norm_num [merge, propagate, get_priority, right_of, left_of, set_right, set_left,
    reset_min, recalc, get_size, get_min_value, get_height, imax, hp]
  simp

/-- Reversing the same segment of a list twice restores the list. -/
theorem revseg_twice (L : List Int) (a b : Nat) (hab : a + b ≤ L.length) :
    (L.take a ++ ((L.drop a).take b).reverse ++ L.drop (b + a)).take a ++
      (((L.take a ++ ((L.drop a).take b).reverse ++ L.drop (b + a)).drop a).take b).reverse ++
      (L.take a ++ ((L.drop a).take b).reverse ++ L.drop (b + a)).drop (b + a) = L := by
  simp only [List.append_assoc]
  have hPl : (L.take a).length = a := by
    rw [List.length_take]; omega
  have hSl : (((L.drop a).take b).reverse).length = b := by
    rw [List.length_reverse, List.length_take, List.length_drop]; omega
  have e1 : (L.take a ++ (((L.drop a).take b).reverse ++ L.drop (b + a))).take a
      = L.take a := by
    rw [List.take_append_of_le_length (by omega),
      List.take_of_length_le (by omega)]
  have e2 : (L.take a ++ (((L.drop a).take b).reverse ++ L.drop (b + a))).drop a
      = ((L.drop a).take b).reverse ++ L.drop (b + a) := by
    rw [List.drop_append_of_le_length (by omega),
      List.drop_of_length_le (by omega), List.nil_append]
  have e3 : (((L.drop a).take b).reverse ++ L.drop (b + a)).take b
      = ((L.drop a).take b).reverse := by
    rw [List.take_append_of_le_length (by omega),
      List.take_of_length_le (by omega)]
  have e4 : (L.take a ++ (((L.drop a).take b).reverse ++ L.drop (b + a))).drop (b + a)
      = L.drop (b + a) := by
    rw [List.drop_append_eq_append_drop,
      List.drop_of_length_le (by omega), List.nil_append,
      List.drop_append_eq_append_drop,
      List.drop_of_length_le (by omega), List.nil_append,
      show b + a - (L.take a).length - (((L.drop a).take b).reverse).length = 0
        from by omega,
      List.drop_zero]
  rw [e1, e2, e3, e4, List.reverse_reverse]
  have e5 : (L.drop a).take b ++ L.drop (b + a) = L.drop a := by
    rw [show b + a = a + b from Nat.add_comm b a, ← List.drop_drop]
    exact List.take_append_drop b (L.drop a)
  rw [e5]
  exact List.take_append_drop a L

/-! ## Claim theorems -/

/-- C1: for every size-correct treap `t` and indices `0 ≤ from ≤ to <
size(t)`, `reverse_subarray t from to` is realized by splitting at
`from`, splitting the remainder at `to - from + 1`, toggling the
segment root's reverse flag and merging back in order, and its
in-order sequence is the in-order sequence of `t` with the closed
segment of positions `from..to` reversed and all other positions
unchanged. -/
theorem claim_C1_reverse_range (t : Node) (lo hi : Int) (hts : sizeOK t)
    (h0 : 0 ≤ lo) (hlh : lo ≤ hi) (hhi : hi < get_size t) :
    reverse_subarray t lo hi =
      merge (merge (split t lo).1
          (flip_rev (split (split t lo).2 (hi - lo + 1)).1))
        (split (split t lo).2 (hi - lo + 1)).2 ∧
    seq (reverse_subarray t lo hi) =
      (seq t).take lo.toNat ++
        (((seq t).drop lo.toNat).take (hi - lo + 1).toNat).reverse ++
        (seq t).drop (hi + 1).toNat := by
  constructor
  · rfl
  · rw [seq_reverse_subarray t lo hi hts,
      show ((hi - lo + 1).toNat + lo.toNat) = (hi + 1).toNat from by omega]

theorem claim_C1_witness :
    sizeOK (newNode 5 0) ∧ (0 : Int) ≤ 0 ∧ (0 : Int) ≤ 0 ∧
    (0 : Int) < get_size (newNode 5 0) ∧
    (reverse_subarray (newNode 5 0) 0 0 =
      merge (merge (split (newNode 5 0) 0).1
          (flip_rev (split (split (newNode 5 0) 0).2 ((0 : Int) - 0 + 1)).1))
        (split (split (newNode 5 0) 0).2 ((0 : Int) - 0 + 1)).2 ∧
    seq (reverse_subarray (newNode 5 0) 0 0) =
      (seq (newNode 5 0)).take (0 : Int).toNat ++
        (((seq (newNode 5 0)).drop (0 : Int).toNat).take ((0 : Int) - 0 + 1).toNat).reverse ++
        (seq (newNode 5 0)).drop ((0 : Int) + 1).toNat) :=
  ⟨by decide, by decide, by decide, by decide,
    claim_C1_reverse_range (newNode 5 0) 0 0 (by decide) (by decide) (by decide)
      (by decide)⟩

/-- C2: on a size-correct treap, merging the two parts returned by
`split t k` yields a treap with the same in-order sequence as `t`, for
any `0 ≤ k ≤ size(t)`. -/
theorem claim_C2_split_merge_inverse (t : Node) (k : Int) (hts : sizeOK t)
    (h0 : 0 ≤ k) (hk : k ≤ get_size t) :
    seq (merge (split t k).1 (split t k).2) = seq t := by
  obtain ⟨-, -, h3, h4⟩ := split_spec t k hts
  rw [seq_merge, h3, h4, List.take_append_drop]

theorem claim_C2_witness :
    sizeOK (newNode 5 0) ∧ (0 : Int) ≤ 1 ∧ (1 : Int) ≤ get_size (newNode 5 0) ∧
    seq (merge (split (newNode 5 0) 1).1 (split (newNode 5 0) 1).2) =
      seq (newNode 5 0) :=
  ⟨by decide, by decide, by decide,
    claim_C2_split_merge_inverse (newNode 5 0) 1 (by decide) (by decide) (by decide)⟩

/-- A two-node treap, reachable by the build phase, holding two values
above `2^30`; its root min cache is clamped to the `1 << 30` sentinel,
which is not an element of its sequence. -/
def badMinTreap : Node := buildTreap (2 ^ 30 + 1, 2) [(2 ^ 30 + 2, 1)]

/-- C3 counterexample: `badMinTreap` is reachable by the public
operations, yet the cached root `subtreeMin` after propagation is the
sentinel `2^30`, which is not the true minimum of the in-order
sequence `[2^30 + 1, 2^30 + 2]` (it is not even an element). -/
theorem claim_C3_counterexample :
    Reachable badMinTreap ∧
    seq badMinTreap = [2 ^ 30 + 1, 2 ^ 30 + 2] ∧
    get_min_value (propagate badMinTreap) = 2 ^ 30 ∧
    get_min_value (propagate badMinTreap) ∉ seq badMinTreap := by
  have hb : badMinTreap =
      Node.mk (2 ^ 30 + 1) 2 (imin (2 ^ 30 + 1) (imin (2 ^ 30) (2 ^ 30 + 2)))
        false 2 1 Node.nil
        (Node.mk (2 ^ 30 + 2) 1 (2 ^ 30 + 2) false 1 0 Node.nil Node.nil) := by
    show merge (newNode (2 ^ 30 + 1) 2) (newNode (2 ^ 30 + 2) 1) = _
    exact merge_two_leaves _ _ _ _ (by norm_num)
  refine ⟨Reachable.build _ _, ?_, ?_, ?_⟩ <;> rw [hb] <;> decide

/-- C3 (amended): for every treap reachable by the public operations
*all of whose stored values are `≤ 2^30`*, the cached `subtreeMin` of
the propagated root is an element of the in-order sequence and a lower
bound of it (i.e. the true minimum), and every node of the propagated
tree satisfies the local equation
`subtreeMin(x) = min(value(x), subtreeMin(x.left), subtreeMin(x.right))`
(with the `1 << 30` sentinel for missing children). -/
theorem claim_C3_min_invariant (t : Node) (hr : Reachable t)
    (hv : vals_le (2 ^ 30) t) :
    (t ≠ Node.nil →
      get_min_value (propagate t) ∈ seq t ∧
      ∀ x ∈ seq t, get_min_value (propagate t) ≤ x) ∧
    localMinEq (propagate t) := by
  have hc := reachable_minCacheOK t hr
  have hcP := minCacheOK_propagate t hc
  have hvP := vals_le_propagate _ t hv
  constructor
  · intro hne
    have hgm : get_min_value (propagate t) = tmin t := by
      rw [gm_eq_tmin _ hcP hvP, tmin_propagate]
    have hlm : tmin t = listMin (seq t) := tmin_eq_listMin t
    have hnil : seq t ≠ [] := fun hcon => hne ((seq_eq_nil_iff t).mp hcon)
    have hball : ∀ x ∈ seq t, x ≤ 2 ^ 30 := (vals_le_iff _ t).mp hv
    constructor
    · rw [hgm, hlm]
      exact listMin_mem _ hnil hball
    · intro x hx
      rw [hgm, hlm]
      exact listMin_le_mem _ x hx
  · exact localMinEq_of_minCacheOK _ hcP hvP

theorem claim_C3_witness :
    Reachable (buildTreap (5, 0) []) ∧ vals_le (2 ^ 30) (buildTreap (5, 0) []) ∧
    ((buildTreap (5, 0) [] ≠ Node.nil →
      get_min_value (propagate (buildTreap (5, 0) [])) ∈ seq (buildTreap (5, 0) []) ∧
      ∀ x ∈ seq (buildTreap (5, 0) []),
        get_min_value (propagate (buildTreap (5, 0) [])) ≤ x) ∧
    localMinEq (propagate (buildTreap (5, 0) []))) :=
  ⟨Reachable.build _ _, by decide,
    claim_C3_min_invariant (buildTreap (5, 0) []) (Reachable.build _ _) (by decide)⟩

/-- A two-node treap with sequence `[5, 5]`: the root holds 5 and its
right child holds 5. -/
def tieTreap : Node := buildTreap (5, 2) [(5, 1)]

/-- C4 counterexample: on the well-formed treap with sequence `[5, 5]`
the minimum value 5 occurs leftmost at position 0, yet
`find_min(·, 0)` returns position 1: the left-subtree check is indeed
attempted first, but a tie between the current node and its *right*
subtree is resolved towards the right subtree, so the leftmost
occurrence is not returned. -/
theorem claim_C4_counterexample :
    Reachable tieTreap ∧ sizeOK tieTreap ∧ minCacheOK tieTreap ∧
    seq tieTreap = [5, 5] ∧ find_min tieTreap 0 = 1 := by
  have hb : tieTreap =
      Node.mk 5 2 (imin 5 (imin (2 ^ 30) 5)) false 2 1 Node.nil
        (Node.mk 5 1 5 false 1 0 Node.nil Node.nil) := by
    show merge (newNode 5 2) (newNode 5 1) = _
    exact merge_two_leaves _ _ _ _ (by norm_num)
  refine ⟨Reachable.build _ _, ?_, ?_, ?_, ?_⟩
  · rw [hb]; decide
  · rw [hb]; decide
  · rw [hb]; decide
  · rw [hb]
    norm_num [find_min, propagate, left_of, right_of, get_min_value, get_size, imin]

/-- C4 (amended): for every non-empty treap with correct size and min
caches and all stored values `< 2^30`, `find_min(t, 0)` returns the
0-based in-order position of *a* node holding the smallest value of
the whole sequence (when several nodes share the smallest value, the
returned occurrence need not be the leftmost one). -/
theorem claim_C4_index_of_minimum (t : Node) (hs : sizeOK t)
    (hc : minCacheOK t) (hv : vals_le (2 ^ 30 - 1) t) (hne : t ≠ Node.nil) :
    ∃ j : Nat, find_min t 0 = j ∧ j < (seq t).length ∧
      (seq t)[j]? = some (listMin (seq t)) ∧
      ∀ x ∈ seq t, listMin (seq t) ≤ x := by
  obtain ⟨j, h1, h2, h3⟩ := find_min_spec t 0 hs hc hv hne
  refine ⟨j, by omega, h2, ?_, ?_⟩
  · rw [← tmin_eq_listMin]
    exact h3
  · intro x hx
    exact listMin_le_mem _ x hx

theorem claim_C4_witness :
    sizeOK (newNode 5 0) ∧ minCacheOK (newNode 5 0) ∧
    vals_le (2 ^ 30 - 1) (newNode 5 0) ∧ newNode 5 0 ≠ Node.nil ∧
    (∃ j : Nat, find_min (newNode 5 0) 0 = j ∧ j < (seq (newNode 5 0)).length ∧
      (seq (newNode 5 0))[j]? = some (listMin (seq (newNode 5 0))) ∧
      ∀ x ∈ seq (newNode 5 0), listMin (seq (newNode 5 0)) ≤ x) :=
  ⟨by decide, by decide, by decide, by decide,
    claim_C4_index_of_minimum (newNode 5 0) (by decide) (by decide) (by decide)
      (by decide)⟩

/-- C5: size conservation.  For size-correct treaps,
`size(merge(a, b)) = size(a) + size(b)`, and for `0 ≤ k ≤ size(t)` the
two parts of `split t k` have sizes `k` and `size(t) - k`. -/
theorem claim_C5_size_conservation (a b t : Node) (k : Int) (ha : sizeOK a)
    (hb : sizeOK b) (ht : sizeOK t) (h0 : 0 ≤ k) (hk : k ≤ get_size t) :
    get_size (merge a b) = get_size a + get_size b ∧
    get_size (split t k).1 = k ∧
    get_size (split t k).1 + get_size (split t k).2 = get_size t := by
  obtain ⟨hs1, hs2, hq1, hq2⟩ := split_spec t k ht
  have hga := get_size_eq_count a ha
  have hgb := get_size_eq_count b hb
  have hgt := get_size_eq_count t ht
  have hgm := get_size_eq_count (merge a b) (sizeOK_merge a b ha hb)
  have hcm := count_merge a b
  have hg1 := get_size_eq_count _ hs1
  have hg2 := get_size_eq_count _ hs2
  have hl1 := length_seq (split t k).1
  have hl2 := length_seq (split t k).2
  have hlt := length_seq t
  have he1 : (seq (split t k).1).length = min k.toNat (seq t).length := by
    rw [hq1, List.length_take]
  have he2 : (seq (split t k).2).length = (seq t).length - k.toNat := by
    rw [hq2, List.length_drop]
  refine ⟨by omega, by omega, by omega⟩

theorem claim_C5_witness :
    sizeOK (newNode 1 0) ∧ sizeOK (newNode 2 0) ∧ sizeOK (newNode 3 0) ∧
    (0 : Int) ≤ 1 ∧ (1 : Int) ≤ get_size (newNode 3 0) ∧
    (get_size (merge (newNode 1 0) (newNode 2 0)) =
        get_size (newNode 1 0) + get_size (newNode 2 0) ∧
     get_size (split (newNode 3 0) 1).1 = 1 ∧
     get_size (split (newNode 3 0) 1).1 + get_size (split (newNode 3 0) 1).2 =
        get_size (newNode 3 0)) :=
  ⟨by decide, by decide, by decide, by decide, by decide,
    claim_C5_size_conservation (newNode 1 0) (newNode 2 0) (newNode 3 0) 1
      (by decide) (by decide) (by decide) (by decide) (by decide)⟩

/-- C6 counterexample: a node `x` with value 5, stale cached
`subtreeMin = 0`, a correct leaf child holding 7 and no right child.
The children's aggregates are correct, yet `recalc x` produces
`subtreeMin = 0` (folding the *prior cached* value), not
`min(value, subtreeMin(left), subtreeMin(right)) = 5` as the claim
states. -/
theorem claim_C6_counterexample :
    sizeOK (Node.mk 7 1 7 false 1 0 Node.nil Node.nil) ∧
    minCacheOK (Node.mk 7 1 7 false 1 0 Node.nil Node.nil) ∧
    get_min_value (recalc (Node.mk 5 0 0 false 2 1
      (Node.mk 7 1 7 false 1 0 Node.nil Node.nil) Node.nil)) = 0 ∧
    min (5 : Int) (min (get_min_value (Node.mk 7 1 7 false 1 0 Node.nil Node.nil))
      (get_min_value Node.nil)) = 5 := by
  refine ⟨by decide, by decide, by decide, by decide⟩

/-- C6 (amended): `recalc x` recomputes `x.size` from the children's
cached sizes and, for an internal node, sets `x.subtreeMin` to the
minimum of the *prior cached* `subtreeMin` and the children's cached
minima (so the result equals `min(value, subtreeMin(left),
subtreeMin(right))` exactly when the prior cache equals the value, as
`reset_min` arranges); for a leaf it sets `subtreeMin = value` and
`height = 0`; it is a no-op on a null reference.  When the prior cache
equals the value and the children's aggregates are correct, the
recalculated node has correct aggregates. -/
theorem claim_C6_recalc (v p m : Int) (rv : Bool) (s h : Int) (l r : Node)
    (hsl : sizeOK l) (hsr : sizeOK r) (hcl : minCacheOK l) (hcr : minCacheOK r) :
    (get_size (recalc (.mk v p m rv s h l r)) = 1 + get_size l + get_size r ∧
     get_min_value (recalc (.mk v p m rv s h l r)) =
       (if l = Node.nil ∧ r = Node.nil then v
        else min m (min (get_min_value l) (get_min_value r))) ∧
     get_height (recalc (.mk v p m rv s h l r)) =
       (if l = Node.nil ∧ r = Node.nil then 0
        else 1 + max (get_height l) (get_height r))) ∧
    (sizeOK (recalc (.mk v p v rv s h l r)) ∧
     minCacheOK (recalc (.mk v p v rv s h l r))) ∧
    recalc Node.nil = Node.nil := by
  refine ⟨?_, ⟨?_, ?_⟩, rfl⟩
  · simp only [recalc]
    split
    · rename_i hcon
      simp [get_size, get_min_value, get_height, hcon.1, hcon.2]
    · rename_i hcon
      simp [get_size, get_min_value, get_height, hcon, imin_eq, imax_eq]
  · exact sizeOK_recalc v p v rv s h l r hsl hsr
  · exact minCacheOK_recalc_reset v p v rv s h l r hcl hcr

theorem claim_C6_witness :
    sizeOK (Node.mk 7 1 7 false 1 0 Node.nil Node.nil) ∧
    sizeOK Node.nil ∧
    minCacheOK (Node.mk 7 1 7 false 1 0 Node.nil Node.nil) ∧
    minCacheOK Node.nil ∧
    ((get_size (recalc (Node.mk 5 0 5 false 9 9
        (Node.mk 7 1 7 false 1 0 Node.nil Node.nil) Node.nil)) =
        1 + get_size (Node.mk 7 1 7 false 1 0 Node.nil Node.nil) +
          get_size Node.nil ∧
      get_min_value (recalc (Node.mk 5 0 5 false 9 9
        (Node.mk 7 1 7 false 1 0 Node.nil Node.nil) Node.nil)) =
        (if (Node.mk 7 1 7 false 1 0 Node.nil Node.nil) = Node.nil ∧
            Node.nil = Node.nil then (5 : Int)
         else min 5 (min (get_min_value (Node.mk 7 1 7 false 1 0 Node.nil Node.nil))
            (get_min_value Node.nil))) ∧
      get_height (recalc (Node.mk 5 0 5 false 9 9
        (Node.mk 7 1 7 false 1 0 Node.nil Node.nil) Node.nil)) =
        (if (Node.mk 7 1 7 false 1 0 Node.nil Node.nil) = Node.nil ∧
            Node.nil = Node.nil then (0 : Int)
         else 1 + max (get_height (Node.mk 7 1 7 false 1 0 Node.nil Node.nil))
            (get_height Node.nil))) ∧
     (sizeOK (recalc (Node.mk 5 0 5 false 9 9
        (Node.mk 7 1 7 false 1 0 Node.nil Node.nil) Node.nil)) ∧
      minCacheOK (recalc (Node.mk 5 0 5 false 9 9
        (Node.mk 7 1 7 false 1 0 Node.nil Node.nil) Node.nil))) ∧
     recalc Node.nil = Node.nil) :=
  ⟨by decide, by decide, by decide, by decide,
    claim_C6_recalc 5 0 5 false 9 9 (Node.mk 7 1 7 false 1 0 Node.nil Node.nil)
      Node.nil (by decide) (by decide) (by decide) (by decide)⟩

/-- C7: reversing the same closed segment `i..j` twice restores the
original in-order sequence, for every size-correct treap and valid
bounds `0 ≤ i ≤ j < size(t)`. -/
theorem claim_C7_reverse_involution (t : Node) (i j : Int) (hts : sizeOK t)
    (h0 : 0 ≤ i) (hij : i ≤ j) (hj : j < get_size t) :
    seq (reverse_subarray (reverse_subarray t i j) i j) = seq t := by
  have hlen := length_seq t
  have hgs := get_size_eq_count t hts
  have hts1 := sizeOK_reverse_subarray t i j hts
  rw [seq_reverse_subarray (reverse_subarray t i j) i j hts1,
    seq_reverse_subarray t i j hts]
  exact revseg_twice (seq t) i.toNat ((j - i + 1).toNat) (by omega)

theorem claim_C7_witness :
    sizeOK (newNode 5 0) ∧ (0 : Int) ≤ 0 ∧ (0 : Int) ≤ 0 ∧
    (0 : Int) < get_size (newNode 5 0) ∧
    seq (reverse_subarray (reverse_subarray (newNode 5 0) 0 0) 0 0) =
      seq (newNode 5 0) :=
  ⟨by decide, by decide, by decide, by decide,
    claim_C7_reverse_involution (newNode 5 0) 0 0 (by decide) (by decide)
      (by decide) (by decide)⟩

/-- C9: degradation on the empty treap: `find_min` returns the
sentinel `-1`, and `remove_first` returns the empty treap unchanged
(its cached-size guard `get_size ≥ 1` fails, so no split is
performed). -/
theorem claim_C9_empty_treap :
    find_min Node.nil 0 = -1 ∧ remove_first Node.nil = Node.nil ∧
    get_size Node.nil = 0 := by
  refine ⟨by simp [find_min], by decide, rfl⟩

/-- C10: on every treap with a correct min cache whose stored values
are all strictly below `2^30`, the `find_min` traversal never follows
the guard into a null child (`find_min_safe`); and the guard does fail
for a treap containing the value `2^30`: the single-node treap holding
`2^30` has cached minimum equal to the null sentinel, so the
left-child guard sends the traversal into the null left child. -/
theorem claim_C10_null_guard :
    (∀ t : Node, minCacheOK t → vals_le (2 ^ 30 - 1) t →
      find_min_safe t = true) ∧
    (minCacheOK (newNode (2 ^ 30) 0) ∧ sizeOK (newNode (2 ^ 30) 0) ∧
     get_value (newNode (2 ^ 30) 0) = 2 ^ 30 ∧
     find_min_safe (newNode (2 ^ 30) 0) = false) := by
  refine ⟨find_min_safe_of_lt, by decide, by decide, by decide, ?_⟩
  rw [newNode_eq]
  norm_num [find_min_safe, propagate, left_of, right_of, get_min_value]

theorem claim_C10_witness :
    minCacheOK (newNode 5 0) ∧ vals_le (2 ^ 30 - 1) (newNode 5 0) ∧
    find_min_safe (newNode 5 0) = true :=
  ⟨by decide, by decide,
    claim_C10_null_guard.1 (newNode 5 0) (by decide) (by decide)⟩

end Treap
